import Mathlib

/-!
Verification of the shrinquem logic-minimization core.

This file gives a shallow embedding of the C sources (the struct-API variant
`shrinquem.c`: `ReduceLogic`, `RemoveNonprimeImplicants`,
`EvaluateSumOfProducts`, `GenerateEquationString`, plus the older array-API
variant of `EvaluateSumOfProducts`) and proves the specified properties.

Modelling conventions:
* C `unsigned long` values are natural numbers; the native bit width
  (`sizeof(long) * 8`, called `W` in the spec) is an explicit parameter `W`.
* The only shift whose count can reach the word width is `1 << numVars`
  (with `numVars = W` allowed by the argument checks).  C leaves such shifts
  undefined; we model every `1 << k` stored into an `unsigned long` as
  `2 ^ k % 2 ^ W`, i.e. truncation to the W-bit word.  For every executed
  shift with `k < W` this is exactly `2 ^ k`.  The loops of the algorithm
  only run when the truncation is exact (see `sizeTruthtable`), so this
  choice only decides the behaviour of the overflowing boundary case that
  the spec itself flags as an open question.
* The W-bit unsigned subtraction `x - 1` is modelled as
  `(x + (2 ^ W - 1)) % 2 ^ W`.
* `x &= ~y` on W-bit words is `Nat.ldiff x y` (clear in `x` the bits of `y`);
  this is exact because all stored values stay below `2 ^ W`.
* C arrays indexed by loop counters become `List`s read with `List.getD`;
  the parallel arrays `terms[]`/`dontCares[]` of a term set are modelled as
  one list of pairs `(terms[i], dontCares[i])` inside the algorithm and are
  split into the two struct fields at the API boundary.
* Possibly-NULL pointers become `Option`; dereferencing a NULL pointer has
  no defined result, so the wrapper taking an optional output struct returns
  `none` in that case.
* `malloc` failure (`STATUS_OUT_OF_MEMORY`) is not modelled: allocation
  always succeeds in the embedding.
* The C `while (1)` loops that cycle the free ("don't care") bits of a term
  are total because the cycling is a binary counter on the free bits; they
  are embedded as fuel recursion, and the fuel passed at each call site
  (`2 ^ bound`, an upper bound for `2 ^ popcount(freeMask)`) is proved
  sufficient.
* The global metrics counters `numTermsKept` / `numTermsRemoved` and the
  `equation` field of the struct are not part of any verified property; the
  equation string is modelled as the return value of
  `GenerateEquationString`.
-/

namespace Shrinquem

/-- The C `triLogic` values `LOGIC_FALSE`, `LOGIC_TRUE`, `LOGIC_DONT_CARE`. -/
inductive triLogic : Type
  | LOGIC_FALSE : triLogic
  | LOGIC_TRUE : triLogic
  | LOGIC_DONT_CARE : triLogic
deriving DecidableEq, Repr

export triLogic (LOGIC_FALSE LOGIC_TRUE LOGIC_DONT_CARE)

/-- The C `shrinquemStatus` enumeration. -/
inductive shrinquemStatus : Type
  | STATUS_OKAY : shrinquemStatus
  | STATUS_TOO_FEW_VARIABLES : shrinquemStatus
  | STATUS_TOO_MANY_VARIABLES : shrinquemStatus
  | STATUS_OUT_OF_MEMORY : shrinquemStatus
  | STATUS_NULL_ARGUMENT : shrinquemStatus
deriving DecidableEq, Repr

export shrinquemStatus (STATUS_OKAY STATUS_TOO_FEW_VARIABLES
  STATUS_TOO_MANY_VARIABLES STATUS_OUT_OF_MEMORY STATUS_NULL_ARGUMENT)

/-- The C `SumOfProducts` struct.  `terms` and `dontCares` are the two
possibly-NULL result arrays; `numTerms` is their logical length.  The
`equation` field is modelled by the return value of
`GenerateEquationString` instead of a struct field. -/
structure SumOfProducts : Type where
  numVars : Nat
  numTerms : Nat
  terms : Option (List Nat)
  dontCares : Option (List Nat)
deriving DecidableEq, Repr

/-- The C word operation `t &= ~m` (clear in `t` the bits of `m`),
written with kernel-computable operations; equal to `Nat.ldiff t m`. -/
def clearBits (t m : Nat) : Nat := t ^^^ (t &&& m)

/-- One pass of the inner `for (iBitDC = ...)` loop of the C code: scan bit
positions `i, i+1, ...` (with `fuel` positions left before the loop bound is
reached), and at each position contained in the mask `d` either clear it and
carry on (if set) or set it and stop (if clear).  Returns the new word and
the value of `iBitDC` at loop exit.  This is one step of a binary counter
restricted to the bit positions of `d`. -/
def dcScan (d : Nat) : Nat → Nat → Nat → Nat × Nat
  | t, i, 0 => (t, i)
  | t, i, fuel + 1 =>
    if d.testBit i then
      if t.testBit i then dcScan d (clearBits t (2 ^ i)) (i + 1) fuel
      else (t ||| 2 ^ i, i)
    else dcScan d t (i + 1) fuel

/-- The "get the next minterm" step used by every cycling loop: run the
inner scan over bit positions `0 .. n-1`.  The exit index equals `n` exactly
when the counter wrapped around (all free bits were set and are now
cleared). -/
def dcNext (d n t : Nat) : Nat × Nat := dcScan d t 0 n

/-- The trace of minterms visited by one of the C `while (1)` cycling loops
when started at `t`: the free-bit enumerator of the spec.  `fuel` bounds the
number of iterations; `2 ^ n` always suffices. -/
def dcEnum (d n : Nat) : Nat → Nat → List Nat
  | _, 0 => []
  | t, fuel + 1 =>
    t :: (let p := dcNext d n t
          if p.2 = n then [] else dcEnum d n p.1 fuel)

/-- The `while (1)` loop of the "can this bit be a don't care" test in
`ReduceLogic` (testing bit `mask = 1 << iBitTest`, with current don't-care
mask `d` and `bound = iBitTest`): starting from `t`, if the truth table is
`LOGIC_FALSE` at the current minterm, flip the test bit back and report
failure; otherwise advance to the next free-bit combination, reporting
success when the counter wraps. -/
def expandLoop (table : Nat → triLogic) (mask d bound : Nat) : Nat → Nat → Nat × Bool
  | t, 0 => (t, false)
  | t, fuel + 1 =>
    if table t = LOGIC_FALSE then (t ^^^ mask, false)
    else
      let p := dcNext d bound t
      if p.2 = bound then (p.1, true)
      else expandLoop table mask d bound p.1 fuel

/-- The `for (iBitTest = ...)` loop of `ReduceLogic` over the remaining bit
positions `bs`, carrying the current term word `t` and don't-care mask `d`:
flip the test bit, clear the current don't-care bits, run `expandLoop`, and
keep the bit as a don't-care exactly when the loop reports success. -/
def expandBitsAux (table : Nat → triLogic) : List Nat → Nat → Nat → Nat × Nat
  | [], t, d => (t, d)
  | b :: bs, t, d =>
    let mask := 2 ^ b
    let t1 := clearBits (t ^^^ mask) d
    let r := expandLoop table mask d b t1 (2 ^ b)
    if r.2 then expandBitsAux table bs r.1 (d ||| mask)
    else expandBitsAux table bs r.1 d

/-- Expansion of one newly seeded term in `ReduceLogic`: the term starts
out equal to the minterm `seed` with no don't-cares, and each bit
`0 .. numVars-1` is tested in order. -/
def expandTerm (table : Nat → triLogic) (numVars seed : Nat) : Nat × Nat :=
  expandBitsAux table (List.range numVars) seed 0

/-- The `while (1)` loop of `ReduceLogic` that marks every minterm covered
by the finished term as resolved. -/
def resolveLoop (d n : Nat) : Nat → (Nat → Bool) → Nat → (Nat → Bool) × Nat
  | t, res, 0 => (res, t)
  | t, res, fuel + 1 =>
    let res1 : Nat → Bool := fun m => if m = t then true else res m
    let p := dcNext d n t
    if p.2 = n then (res1, p.1)
    else resolveLoop d n p.1 res1 fuel

/-- The main `for (iInput = ...)` loop of `ReduceLogic` over the remaining
truth-table indices: each `LOGIC_TRUE` minterm that is not yet resolved
seeds a new term, the term is expanded, every minterm it covers is marked
resolved, and the term (as the loops leave it: the don't-care bits of the
stored word are cleared) is appended to the result in discovery order. -/
def reduceLoop (table : Nat → triLogic) (numVars : Nat) :
    List Nat → List (Nat × Nat) → (Nat → Bool) → List (Nat × Nat)
  | [], L, _ => L
  | iInput :: rest, L, res =>
    if table iInput = LOGIC_TRUE ∧ res iInput = false then
      let td := expandTerm table numVars iInput
      let r := resolveLoop td.2 numVars (clearBits td.1 td.2) res (2 ^ numVars)
      reduceLoop table numVars rest (L ++ [(r.2, td.2)]) r.1
    else reduceLoop table numVars rest L res

/-- The first `while (1)` loop of `RemoveNonprimeImplicants`: increment the
reference count of every minterm covered by one term. -/
def refCountLoop (d n : Nat) : Nat → (Nat → Nat) → Nat → (Nat → Nat) × Nat
  | t, c, 0 => (c, t)
  | t, c, fuel + 1 =>
    let c1 : Nat → Nat := fun m => if m = t then c m + 1 else c m
    let p := dcNext d n t
    if p.2 = n then (c1, p.1)
    else refCountLoop d n p.1 c1 fuel

/-- The first `for (iOldTerm = ...)` loop of `RemoveNonprimeImplicants`:
reference-count the minterms covered by each term (each loop first clears
the stored don't-care bits; the updated stored word is observationally
irrelevant because every later loop clears those bits again, so the term
list is left unchanged here). -/
def buildRefCounts (n : Nat) : List (Nat × Nat) → (Nat → Nat) → Nat → Nat
  | [], c => c
  | td :: rest, c =>
    buildRefCounts n rest (refCountLoop td.2 n (clearBits td.1 td.2) c (2 ^ n)).1

/-- The `while (1)` loop that tests whether a term is prime: search the
covered minterms for one whose reference count is exactly 1, stopping early
when found (leaving the stored word at the current combination). -/
def primeTestLoop (c : Nat → Nat) (d n : Nat) : Nat → Nat → Nat × Bool
  | t, 0 => (t, false)
  | t, fuel + 1 =>
    if c t = 1 then (t, true)
    else
      let p := dcNext d n t
      if p.2 = n then (p.1, false)
      else primeTestLoop c d n p.1 fuel

/-- The `while (1)` loop that decrements the reference count of every
minterm covered by a discarded term. -/
def decRefLoop (d n : Nat) : Nat → (Nat → Nat) → Nat → (Nat → Nat) × Nat
  | t, c, 0 => (c, t)
  | t, c, fuel + 1 =>
    let c1 : Nat → Nat := fun m => if m = t then c m - 1 else c m
    let p := dcNext d n t
    if p.2 = n then (c1, p.1)
    else decRefLoop d n p.1 c1 fuel

/-- The second `for (iNewTerm = iOldTerm = ...)` loop of
`RemoveNonprimeImplicants`: process the terms in discovery order; a prime
term is compacted onto the end of the kept prefix (with the stored word as
`primeTestLoop` left it), a non-prime term is dropped and the counts of its
covered minterms are decremented immediately. -/
def filterLoop (n : Nat) : List (Nat × Nat) → (Nat → Nat) → List (Nat × Nat) → List (Nat × Nat)
  | [], _, kept => kept
  | td :: rest, c, kept =>
    let r := primeTestLoop c td.2 n (clearBits td.1 td.2) (2 ^ n)
    if r.2 then filterLoop n rest c (kept ++ [(r.1, td.2)])
    else filterLoop n rest (decRefLoop td.2 n (clearBits td.1 td.2) c (2 ^ n)).1 kept

/-- `RemoveNonprimeImplicants`: reference-count all covered minterms, then
discard the terms none of whose covered minterms is uniquely covered. -/
def RemoveNonprimeImplicants (n : Nat) (L : List (Nat × Nat)) : List (Nat × Nat) :=
  filterLoop n L (buildRefCounts n L (fun _ => 0)) []

/-- The algorithmic core of `ReduceLogic` (the validated path): scan all
`sizeTruthtable = 1 << numVars` truth-table entries (W-bit arithmetic),
build the initial covering term list, and filter out non-prime implicants.
The result pairs each stored `terms[i]` with its `dontCares[i]`. -/
def ReduceLogic (W : Nat) (table : Nat → triLogic) (numVars : Nat) : List (Nat × Nat) :=
  let sizeTruthtable := 2 ^ numVars % 2 ^ W
  RemoveNonprimeImplicants numVars
    (reduceLoop table numVars (List.range sizeTruthtable) [] (fun _ => false))

/-- The `ReduceLogic` entry point on the struct API: argument checks in
source order (`truthTable == NULL`, `numVars < 1`, `numVars >
MAX_NUM_VARIABLES`), and on any error the output struct is left empty with
both result pointers NULL.  `numVars` is read from the caller's struct. -/
def ReduceLogicC (W : Nat) (table? : Option (Nat → triLogic)) (sop : SumOfProducts) :
    shrinquemStatus × SumOfProducts :=
  match table? with
  | none =>
    (STATUS_NULL_ARGUMENT,
      { sop with numTerms := 0, terms := none, dontCares := none })
  | some table =>
    if sop.numVars < 1 then
      (STATUS_TOO_FEW_VARIABLES,
        { sop with numTerms := 0, terms := none, dontCares := none })
    else if sop.numVars > W then
      (STATUS_TOO_MANY_VARIABLES,
        { sop with numTerms := 0, terms := none, dontCares := none })
    else
      let L := ReduceLogic W table sop.numVars
      (STATUS_OKAY,
        { numVars := sop.numVars, numTerms := L.length,
          terms := some (L.map Prod.fst), dontCares := some (L.map Prod.snd) })

/-- `ReduceLogic` with a possibly-NULL output struct: the C code
dereferences `sumOfProducts` unconditionally (both in the argument checks
and in the clean-up code), so a NULL output struct has no defined result,
modelled by `none`. -/
def ReduceLogicOpt (W : Nat) (table? : Option (Nat → triLogic))
    (sop? : Option SumOfProducts) : Option (shrinquemStatus × SumOfProducts) :=
  sop?.map (ReduceLogicC W table?)

/-- `EvaluateSumOfProducts` (struct variant): clear the input bits beyond
`numVars` with `inputMask = (1 << numVars) - 1` (W-bit arithmetic), then
return `LOGIC_TRUE` iff some term's fixed bits agree with the input on all
non-don't-care positions, via the mask comparison of the source. -/
def EvaluateSumOfProducts (W : Nat) (sop : SumOfProducts) (input : Nat) : triLogic :=
  let inputMask := (2 ^ sop.numVars % 2 ^ W + (2 ^ W - 1)) % 2 ^ W
  let constrainedInput := input &&& inputMask
  let ts := sop.terms.getD []
  let ds := sop.dontCares.getD []
  if (List.range sop.numTerms).any (fun iTerm =>
      (constrainedInput ||| ds.getD iTerm 0) == (ts.getD iTerm 0 ||| ds.getD iTerm 0))
  then LOGIC_TRUE else LOGIC_FALSE

/-- `EvaluateSumOfProducts` (older array variant): per-term, walk the bits
`0 .. numVars-1`; a don't-care position is skipped, a disagreeing fixed
position falsifies the term; one surviving term makes the result
`LOGIC_TRUE`. -/
def EvaluateSumOfProducts2 (numVars numTerms : Nat) (terms dontCares : List Nat)
    (input : Nat) : triLogic :=
  if (List.range numTerms).any (fun iTerm =>
      (List.range numVars).all (fun iVar =>
        (dontCares.getD iTerm 0).testBit iVar ||
          (input.testBit iVar == (terms.getD iTerm 0).testBit iVar)))
  then LOGIC_TRUE else LOGIC_FALSE

/-- The complement mark character `'` (ASCII 39) used by the renderer. -/
def tickString : String := String.mk [Char.ofNat 39]

/-- Auto-generated variable names: sequential one-letter names starting at
`'A'` (ASCII 65), as produced when the caller passes no names. -/
def autoVarNames (numVars : Nat) : List String :=
  (List.range numVars).map (fun iVar => String.mk [Char.ofNat (65 + iVar)])

/-- One rendered product term of `GenerateEquationString`: variables in MSB
to LSB order (`bitMask = 1 << (numVars - iVar - 1)`), skipping don't-care
positions, appending the complement mark when the fixed bit is 0. -/
def termString (numVars : Nat) (names : List String) (t d : Nat) : String :=
  String.join ((List.range numVars).map (fun iVar =>
    let bitMask := 2 ^ (numVars - iVar - 1)
    if (d &&& bitMask) == 0 then
      names.getD iVar "" ++ (if (t &&& bitMask) == 0 then tickString else "")
    else ""))

/-- `GenerateEquationString`: renders `"0"` for an empty term set, `"1"`
for a single term all of whose variables are don't-cares, and otherwise the
`" + "`-joined product terms, auto-naming the variables when none are
given.  The generated string is returned instead of being stored in the
struct. -/
def GenerateEquationString (sop : SumOfProducts) (varNames : Option (List String)) :
    shrinquemStatus × String :=
  let ts := sop.terms.getD []
  let ds := sop.dontCares.getD []
  if sop.numTerms = 0 then (STATUS_OKAY, "0")
  else if sop.numTerms = 1 ∧
      (List.range sop.numVars).all (fun iVar => (ds.getD 0 0 &&& 2 ^ iVar) != 0) then
    (STATUS_OKAY, "1")
  else
    let varNamesToUse := match varNames with
      | some ns => ns
      | none => autoVarNames sop.numVars
    (STATUS_OKAY,
      String.intercalate " + " ((List.range sop.numTerms).map (fun iTerm =>
        termString sop.numVars varNamesToUse (ts.getD iTerm 0) (ds.getD iTerm 0))))

/-- A term `(t, d)` covers the minterm `m` when `m` agrees with `t` outside
the don't-care mask `d`; this is the comparison `(m | d) == (t | d)` of the
evaluator. -/
def covers (t d m : Nat) : Prop := m ||| d = t ||| d

instance (t d m : Nat) : Decidable (covers t d m) :=
  inferInstanceAs (Decidable (m ||| d = t ||| d))

/-- Number of terms of a term list covering the minterm `m`. -/
def countCov (L : List (Nat × Nat)) (m : Nat) : Nat :=
  L.countP (fun td => decide (covers td.1 td.2 m))

/-- The positions of the bits of `d` below `n`, in increasing order (the
free-bit positions cycled by the enumerator, least significant first). -/
def dcPos (d n : Nat) : List Nat := (List.range n).filter (fun i => d.testBit i)

/-- Spread the binary digits of `k` (least significant first) onto the bit
positions `ps`: the `j`-th position of `ps` receives bit `j` of `k`. -/
def deposit : List Nat → Nat → Nat
  | [], _ => 0
  | p :: ps, k => (if k % 2 = 1 then 2 ^ p else 0) ||| deposit ps (k / 2)

/-- Read the bits of `t` at the positions `ps` as a binary number, least
significant first: the left inverse of `deposit`. -/
def valPS : List Nat → Nat → Nat
  | [], _ => 0
  | p :: ps, t => (if t.testBit p then 1 else 0) + 2 * valPS ps t

/-- List-level view of one `dcScan` pass: process the masked positions in
order, clearing set bits (carry) until a clear bit is set (the `Bool`
records whether a clear bit was found; `false` means the counter wrapped). -/
def incPS : List Nat → Nat → Nat × Bool
  | [], t => (t, false)
  | p :: ps, t =>
    if t.testBit p then incPS ps (t.ldiff (2 ^ p)) else (t ||| 2 ^ p, true)

/-- A number all of whose bits at positions at or beyond `n` are clear is
below `2 ^ n`. -/
theorem lt_two_pow_of_testBit_eq_false (x n : Nat)
    (h : ∀ i, n ≤ i → x.testBit i = false) : x < 2 ^ n := by
  have hx : x = x % 2 ^ n := by
    refine Nat.eq_of_testBit_eq fun i => ?_
    rw [Nat.testBit_mod_two_pow]
    by_cases hi : i < n
    · simp [hi]
    · simp [hi, h i (Nat.le_of_not_lt hi)]
  rw [hx]
  exact Nat.mod_lt _ (Nat.pos_pow_of_pos n (by omega))

theorem clearBits_eq_ldiff (t m : Nat) : clearBits t m = t.ldiff m := by
  refine Nat.eq_of_testBit_eq fun q => ?_
  rw [clearBits, Nat.testBit_xor, Nat.testBit_land, Nat.testBit_ldiff]
  cases t.testBit q <;> cases m.testBit q <;> rfl

/-- `dcScan` over the positions `i .. i+len-1` computes `incPS` over the
masked positions in that window, and exits at index `i+len` exactly when
`incPS` reports a wrap. -/
theorem dcScan_eq_incPS (d : Nat) : ∀ (len i t : Nat),
    (dcScan d t i len).1 = (incPS ((List.range' i len).filter (fun j => d.testBit j)) t).1 ∧
      ((dcScan d t i len).2 = i + len ↔
        (incPS ((List.range' i len).filter (fun j => d.testBit j)) t).2 = false) := by
  intro len
  induction len with
  | zero => intro i t; simp [dcScan, incPS]
  | succ len ih =>
    intro i t
    rw [List.range'_succ]
    by_cases hd : d.testBit i
    · by_cases ht : t.testBit i
      · simpa [dcScan, incPS, hd, ht, clearBits_eq_ldiff, Nat.add_right_comm i 1 len] using
          ih (i + 1) (t.ldiff (2 ^ i))
      · simp [dcScan, incPS, hd, ht]
        try omega
    · simpa [dcScan, incPS, hd, Nat.add_right_comm i 1 len] using ih (i + 1) t

/-- `dcNext` with bound `n` is `incPS` over `dcPos d n`. -/
theorem dcNext_eq_incPS (d n t : Nat) :
    (dcNext d n t).1 = (incPS (dcPos d n) t).1 ∧
      ((dcNext d n t).2 = n ↔ (incPS (dcPos d n) t).2 = false) := by
  have h := dcScan_eq_incPS d n 0 t
  rw [← List.range_eq_range'] at h
  simpa [dcNext, dcPos] using h

theorem deposit_zero (ps : List Nat) : deposit ps 0 = 0 := by
  induction ps with
  | nil => rfl
  | cons p tl ih => simp [deposit, ih]

/-- `deposit` only sets bits at positions of `ps`. -/
theorem deposit_testBit_of_not_mem {ps : List Nat} {q : Nat} (hq : q ∉ ps) :
    ∀ k, (deposit ps k).testBit q = false := by
  induction ps with
  | nil => intro k; simp [deposit, Nat.zero_testBit]
  | cons p tl ih =>
    intro k
    have hqp : p ≠ q := fun h => hq (h ▸ List.mem_cons_self p tl)
    have hqtl : q ∉ tl := fun h => hq (List.mem_cons_of_mem p h)
    by_cases hk : k % 2 = 1 <;>
      simp [deposit, hk, Nat.testBit_lor, ih hqtl, Nat.testBit_two_pow_of_ne hqp,
        Nat.zero_testBit]

theorem valPS_lt (ps : List Nat) (t : Nat) : valPS ps t < 2 ^ ps.length := by
  induction ps with
  | nil => simp [valPS]
  | cons p tl ih =>
    by_cases h : t.testBit p <;> simp [valPS, h, List.length_cons, Nat.pow_succ] <;> omega

/-- `valPS` only depends on the bits at the positions of `ps`. -/
theorem valPS_congr {ps : List Nat} {t1 t2 : Nat}
    (h : ∀ q ∈ ps, t1.testBit q = t2.testBit q) : valPS ps t1 = valPS ps t2 := by
  induction ps with
  | nil => rfl
  | cons p tl ih =>
    simp only [valPS, h p (List.mem_cons_self p tl)]
    rw [ih fun q hq => h q (List.mem_cons_of_mem p hq)]

/-- The counter-increment property of one cycling pass: starting from the
free-bit combination `k` (on top of a base word whose `ps` bits are clear),
`incPS` produces combination `k + 1`, or wraps back to the base when all
combinations are exhausted. -/
theorem incPS_counter : ∀ (ps : List Nat), ps.Nodup → ∀ (base : Nat),
    (∀ p ∈ ps, base.testBit p = false) → ∀ k, k < 2 ^ ps.length →
      incPS ps (base ||| deposit ps k) =
        if k + 1 < 2 ^ ps.length then (base ||| deposit ps (k + 1), true)
        else (base, false) := by
  intro ps
  induction ps with
  | nil =>
    intro _ base _ k hk
    have hk0 : k = 0 := by simpa using hk
    subst hk0
    simp [incPS, deposit_zero]
  | cons p tl ih =>
    intro hnd base hbase k hk
    have hpt : p ∉ tl := (List.nodup_cons.mp hnd).1
    have hndtl : tl.Nodup := (List.nodup_cons.mp hnd).2
    have hbp : base.testBit p = false := hbase p (List.mem_cons_self p tl)
    have hbtl : ∀ q ∈ tl, base.testBit q = false := fun q hq =>
      hbase q (List.mem_cons_of_mem p hq)
    have he : 2 ^ (p :: tl).length = 2 * 2 ^ tl.length := by
      simp [List.length_cons, Nat.pow_succ, Nat.mul_comm]
    by_cases hk2 : k % 2 = 1
    · have htp : (base ||| deposit (p :: tl) k).testBit p = true := by
        simp [deposit, hk2, Nat.testBit_lor, hbp, Nat.testBit_two_pow_self,
          deposit_testBit_of_not_mem hpt]
      have hld : (base ||| deposit (p :: tl) k).ldiff (2 ^ p) = base ||| deposit tl (k / 2) := by
        refine Nat.eq_of_testBit_eq fun q => ?_
        by_cases hqp : q = p
        · subst hqp
          simp [Nat.testBit_ldiff, Nat.testBit_lor, hbp, Nat.testBit_two_pow_self,
            deposit_testBit_of_not_mem hpt]
        · simp [Nat.testBit_ldiff, Nat.testBit_lor, deposit, hk2,
            Nat.testBit_two_pow_of_ne (fun h => hqp (h.symm)), Nat.zero_testBit]
      have hk' : k / 2 < 2 ^ tl.length := by omega
      have step : incPS (p :: tl) (base ||| deposit (p :: tl) k) =
          incPS tl (base ||| deposit tl (k / 2)) := by
        rw [incPS, if_pos htp, hld]
      rw [step, ih hndtl base hbtl (k / 2) hk']
      by_cases hcond : k / 2 + 1 < 2 ^ tl.length
      · have hcond2 : k + 1 < 2 ^ (p :: tl).length := by omega
        rw [if_pos hcond, if_pos hcond2]
        have hdep : deposit (p :: tl) (k + 1) = deposit tl (k / 2 + 1) := by
          have h1 : ¬ ((k + 1) % 2 = 1) := by omega
          have h2 : (k + 1) / 2 = k / 2 + 1 := by omega
          rw [deposit, if_neg h1, h2, Nat.zero_or]
        rw [hdep]
      · have hcond2 : ¬ (k + 1 < 2 ^ (p :: tl).length) := by omega
        rw [if_neg hcond, if_neg hcond2]
    · have hk0 : k % 2 = 0 := by omega
      have htp : (base ||| deposit (p :: tl) k).testBit p = false := by
        simp [deposit, hk2, Nat.testBit_lor, hbp, Nat.zero_testBit,
          deposit_testBit_of_not_mem hpt]
      have hcond2 : k + 1 < 2 ^ (p :: tl).length := by omega
      rw [incPS, if_neg (by simp [htp]), if_pos hcond2]
      have h1 : (k + 1) % 2 = 1 := by omega
      have h2 : (k + 1) / 2 = k / 2 := by omega
      refine Prod.ext ?_ rfl
      show (base ||| deposit (p :: tl) k) ||| 2 ^ p = base ||| deposit (p :: tl) (k + 1)
      refine Nat.eq_of_testBit_eq fun q => ?_
      by_cases hqp : q = p
      · subst hqp
        simp [Nat.testBit_lor, Nat.testBit_two_pow_self, deposit, h1]
      · simp [Nat.testBit_lor, deposit, hk2, h1, h2,
          Nat.testBit_two_pow_of_ne (fun h => hqp (h.symm)), Nat.zero_testBit]

theorem mem_dcPos {d n q : Nat} : q ∈ dcPos d n ↔ q < n ∧ d.testBit q = true := by
  simp [dcPos, List.mem_filter, List.mem_range]

theorem nodup_dcPos (d n : Nat) : (dcPos d n).Nodup :=
  (List.nodup_range n).filter _

/-- Clearing the don't-care bits yields a base word with all enumerated
positions clear. -/
theorem ldiff_base {d n : Nat} (x : Nat) :
    ∀ p ∈ dcPos d n, (x.ldiff d).testBit p = false := by
  intro p hp
  have hd : d.testBit p = true := (mem_dcPos.mp hp).2
  simp [Nat.testBit_ldiff, hd]

/-- Reading back the deposited combination recovers it. -/
theorem valPS_deposit : ∀ (ps : List Nat), ps.Nodup → ∀ (base : Nat),
    (∀ p ∈ ps, base.testBit p = false) → ∀ k, k < 2 ^ ps.length →
      valPS ps (base ||| deposit ps k) = k := by
  intro ps
  induction ps with
  | nil =>
    intro _ base _ k hk
    have hk0 : k = 0 := by simpa using hk
    subst hk0
    rfl
  | cons p tl ih =>
    intro hnd base hbase k hk
    have hpt : p ∉ tl := (List.nodup_cons.mp hnd).1
    have hndtl : tl.Nodup := (List.nodup_cons.mp hnd).2
    have hbp : base.testBit p = false := hbase p (List.mem_cons_self p tl)
    have hbtl : ∀ q ∈ tl, base.testBit q = false := fun q hq =>
      hbase q (List.mem_cons_of_mem p hq)
    have he : 2 ^ (p :: tl).length = 2 * 2 ^ tl.length := by
      simp [List.length_cons, Nat.pow_succ, Nat.mul_comm]
    have hk' : k / 2 < 2 ^ tl.length := by omega
    have htp : (base ||| deposit (p :: tl) k).testBit p = decide (k % 2 = 1) := by
      by_cases hk2 : k % 2 = 1 <;>
        simp [deposit, hk2, Nat.testBit_lor, hbp, Nat.testBit_two_pow_self,
          deposit_testBit_of_not_mem hpt, Nat.zero_testBit]
    have htl : valPS tl (base ||| deposit (p :: tl) k) =
        valPS tl (base ||| deposit tl (k / 2)) := by
      refine valPS_congr fun q hq => ?_
      have hqp : p ≠ q := fun h => hpt (h ▸ hq)
      by_cases hk2 : k % 2 = 1 <;>
        simp [deposit, hk2, Nat.testBit_lor,
          Nat.testBit_two_pow_of_ne hqp, Nat.zero_testBit]
    rw [valPS, htp, htl, ih hndtl base hbtl (k / 2) hk']
    by_cases hk2 : k % 2 = 1 <;> simp [hk2] <;> omega

/-- Depositing the value read from `t` reproduces the bits of `t` at the
positions of `ps`. -/
theorem deposit_valPS_testBit : ∀ (ps : List Nat), ps.Nodup → ∀ (t q : Nat), q ∈ ps →
    (deposit ps (valPS ps t)).testBit q = t.testBit q := by
  intro ps
  induction ps with
  | nil => intro _ t q hq; cases hq
  | cons p tl ih =>
    intro hnd t q hq
    have hpt : p ∉ tl := (List.nodup_cons.mp hnd).1
    have hndtl : tl.Nodup := (List.nodup_cons.mp hnd).2
    have hval : valPS (p :: tl) t =
        (if t.testBit p then 1 else 0) + 2 * valPS tl t := rfl
    have hmod : valPS (p :: tl) t % 2 = (if t.testBit p then 1 else 0) := by
      rw [hval]; by_cases h : t.testBit p <;> simp [h] <;> omega
    have hdiv : valPS (p :: tl) t / 2 = valPS tl t := by
      rw [hval]; by_cases h : t.testBit p <;> simp [h] <;> omega
    rcases List.mem_cons.mp hq with hqp | hqtl
    · subst hqp
      by_cases h : t.testBit q <;>
        simp [deposit, hmod, hdiv, h, Nat.testBit_lor, Nat.testBit_two_pow_self,
          deposit_testBit_of_not_mem hpt, Nat.zero_testBit]
    · have hqp : p ≠ q := fun h => hpt (h ▸ hqtl)
      by_cases h : t.testBit p <;>
        simp [deposit, hmod, hdiv, h, Nat.testBit_lor,
          Nat.testBit_two_pow_of_ne hqp, Nat.zero_testBit, ih hndtl t q hqtl]

/-- Characterization of the covered minterms: a term with base word `base`
(don't-care bits cleared) and don't-care mask `d` confined to the low `n`
bits covers exactly the words obtained by depositing one of the
`2 ^ popcount(d)` free-bit combinations onto `base`. -/
theorem covers_iff_deposit {d n : Nat} (hd : d < 2 ^ n) {base : Nat}
    (hbase : ∀ p ∈ dcPos d n, base.testBit p = false) (m : Nat) :
    covers base d m ↔
      ∃ j, j < 2 ^ (dcPos d n).length ∧ m = base ||| deposit (dcPos d n) j := by
  constructor
  · intro hcov
    refine ⟨valPS (dcPos d n) m, valPS_lt _ _, ?_⟩
    refine Nat.eq_of_testBit_eq fun q => ?_
    by_cases hq : q ∈ dcPos d n
    · simp [Nat.testBit_lor, hbase q hq,
        deposit_valPS_testBit (dcPos d n) (nodup_dcPos d n) m q hq]
    · have hdq : d.testBit q = false := by
        by_cases hqn : q < n
        · by_contra h
          exact hq (mem_dcPos.mpr ⟨hqn, by revert h; cases d.testBit q <;> simp⟩)
        · have : d < 2 ^ q := lt_of_lt_of_le hd (Nat.pow_le_pow_right (by omega) (by omega))
          exact Nat.testBit_lt_two_pow this
      have := congrArg (fun x => x.testBit q) hcov
      simp only [Nat.testBit_lor, hdq, Bool.or_false] at this
      simp [Nat.testBit_lor, this, deposit_testBit_of_not_mem hq]
  · rintro ⟨j, _, rfl⟩
    show (base ||| deposit (dcPos d n) j) ||| d = base ||| d
    refine Nat.eq_of_testBit_eq fun q => ?_
    by_cases hq : (deposit (dcPos d n) j).testBit q
    · have hdq : d.testBit q = true := by
        by_contra h
        have hqmem : q ∈ dcPos d n := by
          by_contra hmem
          rw [deposit_testBit_of_not_mem hmem] at hq
          exact Bool.noConfusion hq
        have := (mem_dcPos.mp hqmem).2
        exact h this
      simp [Nat.testBit_lor, hdq]
    · have hq2 : (deposit (dcPos d n) j).testBit q = false := by
        revert hq; cases (deposit (dcPos d n) j).testBit q <;> simp
      simp [Nat.testBit_lor, hq2]

/-- Covered minterms of a well-formed term stay below `2 ^ n`. -/
theorem covers_lt {t d n : Nat} (ht : t < 2 ^ n) (hd : d < 2 ^ n) {m : Nat}
    (hcov : covers t d m) : m < 2 ^ n := by
  refine lt_two_pow_of_testBit_eq_false m n fun i hi => ?_
  have h2i : 2 ^ n ≤ 2 ^ i := Nat.pow_le_pow_right (by omega) hi
  have hti : t.testBit i = false := Nat.testBit_lt_two_pow (lt_of_lt_of_le ht h2i)
  have hdi : d.testBit i = false := Nat.testBit_lt_two_pow (lt_of_lt_of_le hd h2i)
  have := congrArg (fun x => x.testBit i) hcov
  simpa [Nat.testBit_lor, hti, hdi] using this

/-- Clearing the don't-care bits does not change the covered set. -/
theorem covers_ldiff (t d m : Nat) : covers (t.ldiff d) d m ↔ covers t d m := by
  have h : (t.ldiff d) ||| d = t ||| d := by
    refine Nat.eq_of_testBit_eq fun q => ?_
    by_cases hdq : d.testBit q <;> simp [Nat.testBit_lor, Nat.testBit_ldiff, hdq]
  unfold covers
  rw [h]

/-- One advance of the cycling loops, in counter form. -/
theorem dcNext_counter {d n base : Nat}
    (hbase : ∀ p ∈ dcPos d n, base.testBit p = false)
    {k : Nat} (hk : k < 2 ^ (dcPos d n).length) :
    (dcNext d n (base ||| deposit (dcPos d n) k)).1 =
        (if k + 1 < 2 ^ (dcPos d n).length then base ||| deposit (dcPos d n) (k + 1)
         else base) ∧
      ((dcNext d n (base ||| deposit (dcPos d n) k)).2 = n ↔
        ¬ (k + 1 < 2 ^ (dcPos d n).length)) := by
  obtain ⟨h1, h2⟩ := dcNext_eq_incPS d n (base ||| deposit (dcPos d n) k)
  rw [incPS_counter (dcPos d n) (nodup_dcPos d n) base hbase k hk] at h1 h2
  by_cases hcond : k + 1 < 2 ^ (dcPos d n).length
  · rw [if_pos hcond] at h1 h2
    simp only [if_pos hcond]
    refine ⟨h1, iff_of_false (by simpa using h2) (not_not_intro hcond)⟩
  · rw [if_neg hcond] at h1 h2
    simp only [if_neg hcond]
    exact ⟨h1, iff_of_true (by simpa using h2) hcond⟩

/-- What the resolve loop computes: it marks exactly the minterms of the
remaining combinations and leaves the stored word at the base pattern. -/
theorem resolveLoop_spec {d n base : Nat}
    (hbase : ∀ p ∈ dcPos d n, base.testBit p = false) :
    ∀ (fuel k : Nat) (res : Nat → Bool), k < 2 ^ (dcPos d n).length →
      2 ^ (dcPos d n).length - k ≤ fuel →
      (resolveLoop d n (base ||| deposit (dcPos d n) k) res fuel).2 = base ∧
      ∀ m, (resolveLoop d n (base ||| deposit (dcPos d n) k) res fuel).1 m = true ↔
        (res m = true ∨ ∃ j, k ≤ j ∧ j < 2 ^ (dcPos d n).length ∧
          m = base ||| deposit (dcPos d n) j) := by
  intro fuel
  induction fuel with
  | zero => intro k _ hk hfuel; omega
  | succ fuel ih =>
    intro k res hk hfuel
    obtain ⟨hnx1, hnx2⟩ := dcNext_counter hbase hk
    by_cases hcond : k + 1 < 2 ^ (dcPos d n).length
    · have hwrap : ¬ ((dcNext d n (base ||| deposit (dcPos d n) k)).2 = n) := by
        rw [hnx2]; exact fun h => h hcond
      rw [if_pos hcond] at hnx1
      have hstep : resolveLoop d n (base ||| deposit (dcPos d n) k) res (fuel + 1) =
          resolveLoop d n (base ||| deposit (dcPos d n) (k + 1))
            (fun m => if m = base ||| deposit (dcPos d n) k then true else res m) fuel := by
        rw [resolveLoop, if_neg hwrap, hnx1]
      obtain ⟨ih1, ih2⟩ := ih (k + 1)
        (fun m => if m = base ||| deposit (dcPos d n) k then true else res m)
        hcond (by omega)
      rw [hstep]
      refine ⟨ih1, fun m => ?_⟩
      rw [ih2 m]
      constructor
      · rintro (hm | ⟨j, hj1, hj2, hj3⟩)
        · by_cases hmk : m = base ||| deposit (dcPos d n) k
          · exact Or.inr ⟨k, le_refl k, hk, hmk⟩
          · rw [if_neg hmk] at hm
            exact Or.inl hm
        · exact Or.inr ⟨j, by omega, hj2, hj3⟩
      · rintro (hm | ⟨j, hj1, hj2, hj3⟩)
        · by_cases hmk : m = base ||| deposit (dcPos d n) k
          · exact Or.inl (by rw [if_pos hmk])
          · exact Or.inl (by rw [if_neg hmk]; exact hm)
        · by_cases hjk : j = k
          · subst hjk
            exact Or.inl (by rw [if_pos hj3])
          · exact Or.inr ⟨j, by omega, hj2, hj3⟩
    · have hwrap : (dcNext d n (base ||| deposit (dcPos d n) k)).2 = n := hnx2.mpr hcond
      rw [if_neg hcond] at hnx1
      have hstep : resolveLoop d n (base ||| deposit (dcPos d n) k) res (fuel + 1) =
          ((fun m => if m = base ||| deposit (dcPos d n) k then true else res m),
            (dcNext d n (base ||| deposit (dcPos d n) k)).1) := by
        rw [resolveLoop, if_pos hwrap]
      rw [hstep, hnx1]
      refine ⟨rfl, fun m => ?_⟩
      constructor
      · intro hm
        by_cases hmk : m = base ||| deposit (dcPos d n) k
        · exact Or.inr ⟨k, le_refl k, hk, hmk⟩
        · simp only [if_neg hmk] at hm
          exact Or.inl hm
      · rintro (hm | ⟨j, hj1, hj2, hj3⟩)
        · by_cases hmk : m = base ||| deposit (dcPos d n) k
          · simp [hmk]
          · simpa [hmk] using hm
        · have hjk : j = k := by omega
          subst hjk
          simp [hj3]

/-- What the reference-count loop computes: each remaining combination's
minterm is incremented once. -/
theorem refCountLoop_spec {d n base : Nat}
    (hbase : ∀ p ∈ dcPos d n, base.testBit p = false) :
    ∀ (fuel k : Nat) (c : Nat → Nat), k < 2 ^ (dcPos d n).length →
      2 ^ (dcPos d n).length - k ≤ fuel →
      (refCountLoop d n (base ||| deposit (dcPos d n) k) c fuel).2 = base ∧
      ∀ m, (refCountLoop d n (base ||| deposit (dcPos d n) k) c fuel).1 m =
        c m + (List.range' k (2 ^ (dcPos d n).length - k)).countP
          (fun j => m == base ||| deposit (dcPos d n) j) := by
  intro fuel
  induction fuel with
  | zero => intro k _ hk hfuel; omega
  | succ fuel ih =>
    intro k c hk hfuel
    obtain ⟨hnx1, hnx2⟩ := dcNext_counter hbase hk
    have hrange : List.range' k (2 ^ (dcPos d n).length - k) =
        k :: List.range' (k + 1) (2 ^ (dcPos d n).length - (k + 1)) := by
      have h : 2 ^ (dcPos d n).length - k = (2 ^ (dcPos d n).length - (k + 1)) + 1 := by
        omega
      rw [h, List.range'_succ]
    by_cases hcond : k + 1 < 2 ^ (dcPos d n).length
    · have hwrap : ¬ ((dcNext d n (base ||| deposit (dcPos d n) k)).2 = n) := by
        rw [hnx2]; exact fun h => h hcond
      rw [if_pos hcond] at hnx1
      have hstep : refCountLoop d n (base ||| deposit (dcPos d n) k) c (fuel + 1) =
          refCountLoop d n (base ||| deposit (dcPos d n) (k + 1))
            (fun m => if m = base ||| deposit (dcPos d n) k then c m + 1 else c m) fuel := by
        rw [refCountLoop, if_neg hwrap, hnx1]
      obtain ⟨ih1, ih2⟩ := ih (k + 1)
        (fun m => if m = base ||| deposit (dcPos d n) k then c m + 1 else c m)
        hcond (by omega)
      rw [hstep]
      refine ⟨ih1, fun m => ?_⟩
      rw [ih2 m, hrange, List.countP_cons]
      by_cases hmk : m = base ||| deposit (dcPos d n) k <;> simp [hmk] <;> try omega
    · have hwrap : (dcNext d n (base ||| deposit (dcPos d n) k)).2 = n := hnx2.mpr hcond
      rw [if_neg hcond] at hnx1
      have hstep : refCountLoop d n (base ||| deposit (dcPos d n) k) c (fuel + 1) =
          ((fun m => if m = base ||| deposit (dcPos d n) k then c m + 1 else c m),
            (dcNext d n (base ||| deposit (dcPos d n) k)).1) := by
        rw [refCountLoop, if_pos hwrap]
      rw [hstep, hnx1]
      have hone : 2 ^ (dcPos d n).length - k = 1 := by omega
      refine ⟨rfl, fun m => ?_⟩
      rw [hone]
      simp only [List.range'_one, List.countP_cons, List.countP_nil]
      by_cases hmk : m = base ||| deposit (dcPos d n) k <;> simp [hmk] <;> try omega

/-- What the de-reference-count loop computes: each remaining combination's
minterm is decremented once. -/
theorem decRefLoop_spec {d n base : Nat}
    (hbase : ∀ p ∈ dcPos d n, base.testBit p = false) :
    ∀ (fuel k : Nat) (c : Nat → Nat), k < 2 ^ (dcPos d n).length →
      2 ^ (dcPos d n).length - k ≤ fuel →
      (decRefLoop d n (base ||| deposit (dcPos d n) k) c fuel).2 = base ∧
      ∀ m, (decRefLoop d n (base ||| deposit (dcPos d n) k) c fuel).1 m =
        c m - (List.range' k (2 ^ (dcPos d n).length - k)).countP
          (fun j => m == base ||| deposit (dcPos d n) j) := by
  intro fuel
  induction fuel with
  | zero => intro k _ hk hfuel; omega
  | succ fuel ih =>
    intro k c hk hfuel
    obtain ⟨hnx1, hnx2⟩ := dcNext_counter hbase hk
    have hrange : List.range' k (2 ^ (dcPos d n).length - k) =
        k :: List.range' (k + 1) (2 ^ (dcPos d n).length - (k + 1)) := by
      have h : 2 ^ (dcPos d n).length - k = (2 ^ (dcPos d n).length - (k + 1)) + 1 := by
        omega
      rw [h, List.range'_succ]
    by_cases hcond : k + 1 < 2 ^ (dcPos d n).length
    · have hwrap : ¬ ((dcNext d n (base ||| deposit (dcPos d n) k)).2 = n) := by
        rw [hnx2]; exact fun h => h hcond
      rw [if_pos hcond] at hnx1
      have hstep : decRefLoop d n (base ||| deposit (dcPos d n) k) c (fuel + 1) =
          decRefLoop d n (base ||| deposit (dcPos d n) (k + 1))
            (fun m => if m = base ||| deposit (dcPos d n) k then c m - 1 else c m) fuel := by
        rw [decRefLoop, if_neg hwrap, hnx1]
      obtain ⟨ih1, ih2⟩ := ih (k + 1)
        (fun m => if m = base ||| deposit (dcPos d n) k then c m - 1 else c m)
        hcond (by omega)
      rw [hstep]
      refine ⟨ih1, fun m => ?_⟩
      rw [ih2 m, hrange, List.countP_cons]
      by_cases hmk : m = base ||| deposit (dcPos d n) k <;> simp [hmk] <;> try omega
    · have hwrap : (dcNext d n (base ||| deposit (dcPos d n) k)).2 = n := hnx2.mpr hcond
      rw [if_neg hcond] at hnx1
      have hstep : decRefLoop d n (base ||| deposit (dcPos d n) k) c (fuel + 1) =
          ((fun m => if m = base ||| deposit (dcPos d n) k then c m - 1 else c m),
            (dcNext d n (base ||| deposit (dcPos d n) k)).1) := by
        rw [decRefLoop, if_pos hwrap]
      rw [hstep, hnx1]
      have hone : 2 ^ (dcPos d n).length - k = 1 := by omega
      refine ⟨rfl, fun m => ?_⟩
      rw [hone]
      simp only [List.range'_one, List.countP_cons, List.countP_nil]
      by_cases hmk : m = base ||| deposit (dcPos d n) k <;> simp [hmk] <;> try omega

/-- What the don't-care test loop computes, when started at combination `k`
(`bound` is the tested bit; `d` holds only lower bits): if no remaining
covered minterm is `LOGIC_FALSE` the loop wraps and accepts, leaving the
base pattern; otherwise it stops at a `LOGIC_FALSE` minterm and flips the
test bit back. -/
theorem expandLoop_spec (table : Nat → triLogic) (mask : Nat) {d bound base : Nat}
    (hbase : ∀ p ∈ dcPos d bound, base.testBit p = false) :
    ∀ (fuel k : Nat), k < 2 ^ (dcPos d bound).length →
      2 ^ (dcPos d bound).length - k ≤ fuel →
      ((∀ j, k ≤ j → j < 2 ^ (dcPos d bound).length →
          table (base ||| deposit (dcPos d bound) j) ≠ LOGIC_FALSE) →
        expandLoop table mask d bound (base ||| deposit (dcPos d bound) k) fuel =
          (base, true)) ∧
      ((∃ j, k ≤ j ∧ j < 2 ^ (dcPos d bound).length ∧
          table (base ||| deposit (dcPos d bound) j) = LOGIC_FALSE) →
        ∃ j0, k ≤ j0 ∧ j0 < 2 ^ (dcPos d bound).length ∧
          table (base ||| deposit (dcPos d bound) j0) = LOGIC_FALSE ∧
          expandLoop table mask d bound (base ||| deposit (dcPos d bound) k) fuel =
            ((base ||| deposit (dcPos d bound) j0) ^^^ mask, false)) := by
  intro fuel
  induction fuel with
  | zero => intro k hk hfuel; omega
  | succ fuel ih =>
    intro k hk hfuel
    obtain ⟨hnx1, hnx2⟩ := dcNext_counter hbase hk
    by_cases hF : table (base ||| deposit (dcPos d bound) k) = LOGIC_FALSE
    · have hstep : expandLoop table mask d bound (base ||| deposit (dcPos d bound) k)
          (fuel + 1) = ((base ||| deposit (dcPos d bound) k) ^^^ mask, false) := by
        rw [expandLoop, if_pos hF]
      constructor
      · intro hall
        exact absurd hF (hall k (le_refl k) hk)
      · intro _
        exact ⟨k, le_refl k, hk, hF, hstep⟩
    · by_cases hcond : k + 1 < 2 ^ (dcPos d bound).length
      · have hwrap : ¬ ((dcNext d bound (base ||| deposit (dcPos d bound) k)).2 = bound) := by
          rw [hnx2]; exact fun h => h hcond
        rw [if_pos hcond] at hnx1
        have hstep : expandLoop table mask d bound (base ||| deposit (dcPos d bound) k)
            (fuel + 1) =
            expandLoop table mask d bound (base ||| deposit (dcPos d bound) (k + 1)) fuel := by
          rw [expandLoop, if_neg hF, if_neg hwrap, hnx1]
        obtain ⟨ihA, ihB⟩ := ih (k + 1) hcond (by omega)
        rw [hstep]
        constructor
        · intro hall
          exact ihA fun j hj1 hj2 => hall j (by omega) hj2
        · rintro ⟨j, hj1, hj2, hj3⟩
          have hjk : k + 1 ≤ j := by
            rcases Nat.eq_or_lt_of_le hj1 with h | h
            · exact absurd (h ▸ hj3) hF
            · omega
          obtain ⟨j0, hj01, hj02, hj03, hj04⟩ := ihB ⟨j, hjk, hj2, hj3⟩
          exact ⟨j0, by omega, hj02, hj03, hj04⟩
      · have hwrap : (dcNext d bound (base ||| deposit (dcPos d bound) k)).2 = bound :=
          hnx2.mpr hcond
        rw [if_neg hcond] at hnx1
        have hstep : expandLoop table mask d bound (base ||| deposit (dcPos d bound) k)
            (fuel + 1) = (base, true) := by
          rw [expandLoop, if_neg hF, if_pos hwrap, hnx1]
        constructor
        · intro _; exact hstep
        · rintro ⟨j, hj1, hj2, hj3⟩
          have hjk : j = k := by omega
          exact absurd (hjk ▸ hj3) hF

/-- What the prime test loop computes: if some remaining covered minterm is
uniquely referenced the loop stops there (leaving the stored word at that
minterm) and reports prime; otherwise it wraps to the base pattern and
reports non-prime. -/
theorem primeTestLoop_spec (c : Nat → Nat) {d n base : Nat}
    (hbase : ∀ p ∈ dcPos d n, base.testBit p = false) :
    ∀ (fuel k : Nat), k < 2 ^ (dcPos d n).length →
      2 ^ (dcPos d n).length - k ≤ fuel →
      ((∀ j, k ≤ j → j < 2 ^ (dcPos d n).length →
          c (base ||| deposit (dcPos d n) j) ≠ 1) →
        primeTestLoop c d n (base ||| deposit (dcPos d n) k) fuel = (base, false)) ∧
      ((∃ j, k ≤ j ∧ j < 2 ^ (dcPos d n).length ∧
          c (base ||| deposit (dcPos d n) j) = 1) →
        ∃ j0, k ≤ j0 ∧ j0 < 2 ^ (dcPos d n).length ∧
          c (base ||| deposit (dcPos d n) j0) = 1 ∧
          primeTestLoop c d n (base ||| deposit (dcPos d n) k) fuel =
            (base ||| deposit (dcPos d n) j0, true)) := by
  intro fuel
  induction fuel with
  | zero => intro k hk hfuel; omega
  | succ fuel ih =>
    intro k hk hfuel
    obtain ⟨hnx1, hnx2⟩ := dcNext_counter hbase hk
    by_cases hF : c (base ||| deposit (dcPos d n) k) = 1
    · have hstep : primeTestLoop c d n (base ||| deposit (dcPos d n) k) (fuel + 1) =
          (base ||| deposit (dcPos d n) k, true) := by
        rw [primeTestLoop, if_pos hF]
      constructor
      · intro hall
        exact absurd hF (hall k (le_refl k) hk)
      · intro _
        exact ⟨k, le_refl k, hk, hF, hstep⟩
    · by_cases hcond : k + 1 < 2 ^ (dcPos d n).length
      · have hwrap : ¬ ((dcNext d n (base ||| deposit (dcPos d n) k)).2 = n) := by
          rw [hnx2]; exact fun h => h hcond
        rw [if_pos hcond] at hnx1
        have hstep : primeTestLoop c d n (base ||| deposit (dcPos d n) k) (fuel + 1) =
            primeTestLoop c d n (base ||| deposit (dcPos d n) (k + 1)) fuel := by
          rw [primeTestLoop, if_neg hF, if_neg hwrap, hnx1]
        obtain ⟨ihA, ihB⟩ := ih (k + 1) hcond (by omega)
        rw [hstep]
        constructor
        · intro hall
          exact ihA fun j hj1 hj2 => hall j (by omega) hj2
        · rintro ⟨j, hj1, hj2, hj3⟩
          have hjk : k + 1 ≤ j := by
            rcases Nat.eq_or_lt_of_le hj1 with h | h
            · exact absurd (h ▸ hj3) hF
            · omega
          obtain ⟨j0, hj01, hj02, hj03, hj04⟩ := ihB ⟨j, hjk, hj2, hj3⟩
          exact ⟨j0, by omega, hj02, hj03, hj04⟩
      · have hwrap : (dcNext d n (base ||| deposit (dcPos d n) k)).2 = n := hnx2.mpr hcond
        rw [if_neg hcond] at hnx1
        have hstep : primeTestLoop c d n (base ||| deposit (dcPos d n) k) (fuel + 1) =
            (base, false) := by
          rw [primeTestLoop, if_neg hF, if_pos hwrap, hnx1]
        constructor
        · intro _; exact hstep
        · rintro ⟨j, hj1, hj2, hj3⟩
          have hjk : j = k := by omega
          exact absurd (hjk ▸ hj3) hF

/-- The enumerator trace from combination `k` onward is the counter
sequence. -/
theorem dcEnum_spec {d n base : Nat}
    (hbase : ∀ p ∈ dcPos d n, base.testBit p = false) :
    ∀ (fuel k : Nat), k < 2 ^ (dcPos d n).length →
      2 ^ (dcPos d n).length - k ≤ fuel →
      dcEnum d n (base ||| deposit (dcPos d n) k) fuel =
        (List.range' k (2 ^ (dcPos d n).length - k)).map
          (fun j => base ||| deposit (dcPos d n) j) := by
  intro fuel
  induction fuel with
  | zero => intro k hk hfuel; omega
  | succ fuel ih =>
    intro k hk hfuel
    obtain ⟨hnx1, hnx2⟩ := dcNext_counter hbase hk
    have hrange : List.range' k (2 ^ (dcPos d n).length - k) =
        k :: List.range' (k + 1) (2 ^ (dcPos d n).length - (k + 1)) := by
      have h : 2 ^ (dcPos d n).length - k = (2 ^ (dcPos d n).length - (k + 1)) + 1 := by
        omega
      rw [h, List.range'_succ]
    by_cases hcond : k + 1 < 2 ^ (dcPos d n).length
    · have hwrap : ¬ ((dcNext d n (base ||| deposit (dcPos d n) k)).2 = n) := by
        rw [hnx2]; exact fun h => h hcond
      rw [if_pos hcond] at hnx1
      have hstep : dcEnum d n (base ||| deposit (dcPos d n) k) (fuel + 1) =
          (base ||| deposit (dcPos d n) k) ::
            dcEnum d n (base ||| deposit (dcPos d n) (k + 1)) fuel := by
        rw [dcEnum]
        simp only [if_neg hwrap, hnx1]
      rw [hstep, ih (k + 1) hcond (by omega), hrange, List.map_cons]
    · have hwrap : (dcNext d n (base ||| deposit (dcPos d n) k)).2 = n := hnx2.mpr hcond
      have hstep : dcEnum d n (base ||| deposit (dcPos d n) k) (fuel + 1) =
          [base ||| deposit (dcPos d n) k] := by
        rw [dcEnum]
        simp only [if_pos hwrap]
      have hone : 2 ^ (dcPos d n).length - k = 1 := by omega
      rw [hstep, hrange]
      have hnil : 2 ^ (dcPos d n).length - (k + 1) = 0 := by omega
      rw [hnil]
      simp

theorem dcPos_len_le (d n : Nat) : 2 ^ (dcPos d n).length ≤ 2 ^ n :=
  Nat.pow_le_pow_right (by omega)
    (le_trans (List.length_filter_le _ _) (by rw [List.length_range]))

theorem ldiff_eq_base (x d n : Nat) :
    x.ldiff d = x.ldiff d ||| deposit (dcPos d n) 0 := by
  rw [deposit_zero, Nat.or_zero]

/-- `covers` as a bounded quantification over counter indices, with the
base word obtained by clearing the don't-care bits of any representative. -/
theorem covers_iff_deposit_ldiff {d n : Nat} (hd : d < 2 ^ n) (x m : Nat) :
    covers x d m ↔ ∃ j, j < 2 ^ (dcPos d n).length ∧
      m = x.ldiff d ||| deposit (dcPos d n) j := by
  rw [← covers_ldiff x d m]
  exact covers_iff_deposit hd (ldiff_base x) m

/-- Every term covers the minterm obtained by clearing its don't-care
bits. -/
theorem covers_base (x d : Nat) : covers x d (x.ldiff d) := by
  show x.ldiff d ||| d = x ||| d
  refine Nat.eq_of_testBit_eq fun q => ?_
  by_cases hdq : d.testBit q <;> simp [Nat.testBit_lor, Nat.testBit_ldiff, hdq]

theorem countP_range_eq_zero {N : Nat} {f : Nat → Nat} {m : Nat}
    (h : ∀ j, j < N → m ≠ f j) :
    (List.range N).countP (fun j => m == f j) = 0 := by
  rw [List.countP_eq_zero]
  intro j hj
  have hjN : j < N := List.mem_range.mp hj
  simpa using h j hjN

theorem countP_range_eq_one {N : Nat} {f : Nat → Nat} {m : Nat}
    (hinj : ∀ j1 j2, j1 < N → j2 < N → f j1 = f j2 → j1 = j2)
    {j0 : Nat} (hj0 : j0 < N) (hm : m = f j0) :
    (List.range N).countP (fun j => m == f j) = 1 := by
  have hcongr : ∀ j ∈ List.range N, ((m == f j) = true ↔ (j == j0) = true) := by
    intro j hj
    have hjN : j < N := List.mem_range.mp hj
    by_cases hjj : j = j0
    · subst hjj; simp [hm]
    · have hne : m ≠ f j := fun hmj => hjj (hinj j j0 hjN hj0 (hmj.symm.trans hm))
      simp [hne, hjj]
  rw [List.countP_congr hcongr]
  show List.count j0 (List.range N) = 1
  exact List.count_eq_one_of_mem (List.nodup_range N) (List.mem_range.mpr hj0)

/-- The deposits onto a common base are injective. -/
theorem deposit_inj {d n : Nat} (x : Nat) :
    ∀ j1 j2, j1 < 2 ^ (dcPos d n).length → j2 < 2 ^ (dcPos d n).length →
      x.ldiff d ||| deposit (dcPos d n) j1 = x.ldiff d ||| deposit (dcPos d n) j2 →
      j1 = j2 := by
  intro j1 j2 hj1 hj2 he
  have h1 := valPS_deposit (dcPos d n) (nodup_dcPos d n) (x.ldiff d) (ldiff_base x) j1 hj1
  have h2 := valPS_deposit (dcPos d n) (nodup_dcPos d n) (x.ldiff d) (ldiff_base x) j2 hj2
  rw [← h1, ← h2, he]

/-- Counting the counter indices that deposit to `m` gives the coverage
indicator. -/
theorem countP_deposit {d n : Nat} (hd : d < 2 ^ n) (x m : Nat) :
    (List.range (2 ^ (dcPos d n).length)).countP
        (fun j => m == x.ldiff d ||| deposit (dcPos d n) j) =
      if covers x d m then 1 else 0 := by
  by_cases hcov : covers x d m
  · obtain ⟨j0, hj0, hm⟩ := (covers_iff_deposit_ldiff hd x m).mp hcov
    rw [if_pos hcov]
    exact countP_range_eq_one (deposit_inj x) hj0 hm
  · rw [if_neg hcov]
    refine countP_range_eq_zero fun j hj hmj => ?_
    exact hcov ((covers_iff_deposit_ldiff hd x m).mpr ⟨j, hj, hmj⟩)

/-- Entry form of the resolve loop: starting from the base pattern with
fuel `2 ^ n`, it marks exactly the covered minterms and leaves the stored
word at the base pattern. -/
theorem resolveLoop_run {d n : Nat} (hd : d < 2 ^ n) (x : Nat) (res : Nat → Bool) :
    (resolveLoop d n (x.ldiff d) res (2 ^ n)).2 = x.ldiff d ∧
      ∀ m, ((resolveLoop d n (x.ldiff d) res (2 ^ n)).1 m = true ↔
        (res m = true ∨ covers x d m)) := by
  have h0 : (0 : Nat) < 2 ^ (dcPos d n).length := Nat.pos_pow_of_pos _ (by omega)
  have hrun := resolveLoop_spec (ldiff_base x) (2 ^ n) 0 res h0
    (le_trans (by omega) (dcPos_len_le d n))
  rw [← ldiff_eq_base x d n] at hrun
  refine ⟨hrun.1, fun m => ?_⟩
  rw [hrun.2 m, covers_iff_deposit_ldiff hd x m]
  constructor
  · rintro (h | ⟨j, _, hj2, hj3⟩)
    · exact Or.inl h
    · exact Or.inr ⟨j, hj2, hj3⟩
  · rintro (h | ⟨j, hj1, hj2⟩)
    · exact Or.inl h
    · exact Or.inr ⟨j, by omega, hj1, hj2⟩

/-- Entry form of the reference-count loop: every covered minterm is
incremented once. -/
theorem refCountLoop_run {d n : Nat} (hd : d < 2 ^ n) (x : Nat) (c : Nat → Nat) :
    (refCountLoop d n (x.ldiff d) c (2 ^ n)).2 = x.ldiff d ∧
      ∀ m, (refCountLoop d n (x.ldiff d) c (2 ^ n)).1 m =
        c m + (if covers x d m then 1 else 0) := by
  have h0 : (0 : Nat) < 2 ^ (dcPos d n).length := Nat.pos_pow_of_pos _ (by omega)
  have hrun := refCountLoop_spec (ldiff_base x) (2 ^ n) 0 c h0
    (le_trans (by omega) (dcPos_len_le d n))
  rw [← ldiff_eq_base x d n] at hrun
  refine ⟨hrun.1, fun m => ?_⟩
  rw [hrun.2 m]
  rw [Nat.sub_zero, ← List.range_eq_range', countP_deposit hd x m]

/-- Entry form of the de-reference-count loop: every covered minterm is
decremented once. -/
theorem decRefLoop_run {d n : Nat} (hd : d < 2 ^ n) (x : Nat) (c : Nat → Nat) :
    (decRefLoop d n (x.ldiff d) c (2 ^ n)).2 = x.ldiff d ∧
      ∀ m, (decRefLoop d n (x.ldiff d) c (2 ^ n)).1 m =
        c m - (if covers x d m then 1 else 0) := by
  have h0 : (0 : Nat) < 2 ^ (dcPos d n).length := Nat.pos_pow_of_pos _ (by omega)
  have hrun := decRefLoop_spec (ldiff_base x) (2 ^ n) 0 c h0
    (le_trans (by omega) (dcPos_len_le d n))
  rw [← ldiff_eq_base x d n] at hrun
  refine ⟨hrun.1, fun m => ?_⟩
  rw [hrun.2 m]
  rw [Nat.sub_zero, ← List.range_eq_range', countP_deposit hd x m]

/-- Entry form of the don't-care test loop. -/
theorem expandLoop_run (table : Nat → triLogic) (mask : Nat) {d bound : Nat}
    (hd : d < 2 ^ bound) (y : Nat) :
    ((∀ m, covers y d m → table m ≠ LOGIC_FALSE) →
      expandLoop table mask d bound (y.ldiff d) (2 ^ bound) = (y.ldiff d, true)) ∧
    ((∃ m, covers y d m ∧ table m = LOGIC_FALSE) →
      ∃ m0, covers y d m0 ∧ table m0 = LOGIC_FALSE ∧
        expandLoop table mask d bound (y.ldiff d) (2 ^ bound) = (m0 ^^^ mask, false)) := by
  have h0 : (0 : Nat) < 2 ^ (dcPos d bound).length := Nat.pos_pow_of_pos _ (by omega)
  have hrun := expandLoop_spec table mask (ldiff_base y)
    (2 ^ bound) 0 h0 (le_trans (by omega) (dcPos_len_le d bound))
  rw [← ldiff_eq_base y d bound] at hrun
  constructor
  · intro hall
    refine hrun.1 fun j _ hj2 => ?_
    exact hall _ ((covers_iff_deposit_ldiff hd y _).mpr ⟨j, hj2, rfl⟩)
  · rintro ⟨m, hm1, hm2⟩
    obtain ⟨j, hj1, hj2⟩ := (covers_iff_deposit_ldiff hd y m).mp hm1
    obtain ⟨j0, _, hj02, hj03, hj04⟩ := hrun.2 ⟨j, by omega, hj1, by rw [← hj2]; exact hm2⟩
    exact ⟨y.ldiff d ||| deposit (dcPos d bound) j0,
      (covers_iff_deposit_ldiff hd y _).mpr ⟨j0, hj02, rfl⟩, hj03, hj04⟩

/-- Entry form of the prime test loop. -/
theorem primeTestLoop_run (c : Nat → Nat) {d n : Nat} (hd : d < 2 ^ n) (y : Nat) :
    ((∀ m, covers y d m → c m ≠ 1) →
      primeTestLoop c d n (y.ldiff d) (2 ^ n) = (y.ldiff d, false)) ∧
    ((∃ m, covers y d m ∧ c m = 1) →
      ∃ m0, covers y d m0 ∧ c m0 = 1 ∧
        primeTestLoop c d n (y.ldiff d) (2 ^ n) = (m0, true)) := by
  have h0 : (0 : Nat) < 2 ^ (dcPos d n).length := Nat.pos_pow_of_pos _ (by omega)
  have hrun := primeTestLoop_spec c (ldiff_base y)
    (2 ^ n) 0 h0 (le_trans (by omega) (dcPos_len_le d n))
  rw [← ldiff_eq_base y d n] at hrun
  constructor
  · intro hall
    refine hrun.1 fun j _ hj2 => ?_
    exact hall _ ((covers_iff_deposit_ldiff hd y _).mpr ⟨j, hj2, rfl⟩)
  · rintro ⟨m, hm1, hm2⟩
    obtain ⟨j, hj1, hj2⟩ := (covers_iff_deposit_ldiff hd y m).mp hm1
    obtain ⟨j0, _, hj02, hj03, hj04⟩ := hrun.2 ⟨j, by omega, hj1, by rw [← hj2]; exact hm2⟩
    exact ⟨y.ldiff d ||| deposit (dcPos d n) j0,
      (covers_iff_deposit_ldiff hd y _).mpr ⟨j0, hj02, rfl⟩, hj03, hj04⟩

theorem xor_two_pow_lt {x n i : Nat} (hx : x < 2 ^ n) (hi : i < n) :
    x ^^^ 2 ^ i < 2 ^ n := by
  refine lt_two_pow_of_testBit_eq_false _ n fun q hq => ?_
  have h2 : 2 ^ n ≤ 2 ^ q := Nat.pow_le_pow_right (by omega) hq
  rw [Nat.testBit_xor, Nat.testBit_lt_two_pow (lt_of_lt_of_le hx h2),
    Nat.testBit_two_pow_of_ne (by omega)]
  rfl

theorem ldiff_lt {x n : Nat} (d : Nat) (hx : x < 2 ^ n) : x.ldiff d < 2 ^ n := by
  refine lt_two_pow_of_testBit_eq_false _ n fun q hq => ?_
  have h2 : 2 ^ n ≤ 2 ^ q := Nat.pow_le_pow_right (by omega) hq
  rw [Nat.testBit_ldiff, Nat.testBit_lt_two_pow (lt_of_lt_of_le hx h2)]
  rfl

theorem lor_lt {a b n : Nat} (ha : a < 2 ^ n) (hb : b < 2 ^ n) : a ||| b < 2 ^ n := by
  refine lt_two_pow_of_testBit_eq_false _ n fun q hq => ?_
  have h2 : 2 ^ n ≤ 2 ^ q := Nat.pow_le_pow_right (by omega) hq
  rw [Nat.testBit_lor, Nat.testBit_lt_two_pow (lt_of_lt_of_le ha h2),
    Nat.testBit_lt_two_pow (lt_of_lt_of_le hb h2)]
  rfl

theorem lor_two_pow_lt {d b : Nat} (hd : d < 2 ^ b) : d ||| 2 ^ b < 2 ^ (b + 1) := by
  have h1 : d < 2 ^ (b + 1) := lt_of_lt_of_le hd (Nat.pow_le_pow_right (by omega) (by omega))
  have h2 : 2 ^ b < 2 ^ (b + 1) := Nat.pow_lt_pow_right (by omega) (by omega)
  exact lor_lt h1 h2

theorem ldiff_lor_self (x d : Nat) : (x.ldiff d) ||| d = x ||| d := by
  refine Nat.eq_of_testBit_eq fun q => ?_
  by_cases hdq : d.testBit q <;> simp [Nat.testBit_lor, Nat.testBit_ldiff, hdq]

theorem xor_cong_lor {a b d mask : Nat} (h : a ||| d = b ||| d) :
    (a ^^^ mask) ||| d = (b ^^^ mask) ||| d := by
  refine Nat.eq_of_testBit_eq fun q => ?_
  have hq := congrArg (fun x => x.testBit q) h
  simp only [Nat.testBit_lor] at hq
  by_cases hdq : d.testBit q
  · simp [Nat.testBit_lor, hdq]
  · simp only [hdq, Bool.or_false] at hq
    simp [Nat.testBit_lor, Nat.testBit_xor, hdq, hq]

theorem xor_xor_cancel (a mask : Nat) : (a ^^^ mask) ^^^ mask = a := by
  rw [Nat.xor_assoc, Nat.xor_self, Nat.xor_zero]

theorem xor_lor_two_pow (a : Nat) (i : Nat) : (a ^^^ 2 ^ i) ||| 2 ^ i = a ||| 2 ^ i := by
  refine Nat.eq_of_testBit_eq fun q => ?_
  by_cases hqi : q = i
  · subst hqi; simp [Nat.testBit_lor, Nat.testBit_two_pow_self]
  · simp [Nat.testBit_lor, Nat.testBit_xor, Nat.testBit_two_pow_of_ne (fun h => hqi h.symm)]

/-- Splitting the cover of a term after bit `b` was accepted as a
don't-care: a minterm covered by the enlarged term is covered by the old
term or by the old term with bit `b` flipped. -/
theorem covers_enlarge_cases {t d b m : Nat} (hdb : d.testBit b = false)
    (hm : covers ((t ^^^ 2 ^ b).ldiff d) (d ||| 2 ^ b) m) :
    covers t d m ∨ covers (t ^^^ 2 ^ b) d m := by
  have hq : ∀ q, q ≠ b → d.testBit q = false → m.testBit q = t.testBit q := by
    intro q hqb hdq
    have h := congrArg (fun x => x.testBit q) hm
    simp only [Nat.testBit_lor, Nat.testBit_ldiff, Nat.testBit_xor,
      Nat.testBit_two_pow_of_ne (fun h => hqb h.symm), hdq, Bool.or_false,
      Bool.xor_false, Bool.and_true, Bool.not_false] at h
    simpa using h
  by_cases hmb : m.testBit b = t.testBit b
  · left
    refine Nat.eq_of_testBit_eq fun q => ?_
    simp only [Nat.testBit_lor]
    by_cases hdq : d.testBit q
    · simp [hdq]
    · by_cases hqb : q = b
      · subst hqb; simp [hdq, hmb]
      · simp [hdq, hq q hqb (by simpa using hdq)]
  · right
    refine Nat.eq_of_testBit_eq fun q => ?_
    simp only [Nat.testBit_lor]
    by_cases hdq : d.testBit q
    · simp [hdq]
    · by_cases hqb : q = b
      · subst hqb
        simp only [Nat.testBit_xor, Nat.testBit_two_pow_self, hdq]
        revert hmb
        cases m.testBit q <;> cases t.testBit q <;> simp
      · simp [hdq, hq q hqb (by simpa using hdq), Nat.testBit_xor,
          Nat.testBit_two_pow_of_ne (fun h => hqb h.symm)]

/-- Invariant of the bit-test loop of `ReduceLogic`: processing bits
`b .. n-1` with a term whose don't-care bits are below `b`, the cover keeps
containing the seed and keeps avoiding `LOGIC_FALSE` minterms, and the
results stay below `2 ^ n`. -/
theorem expandBitsAux_inv (table : Nat → triLogic) {n : Nat} (seed : Nat) :
    ∀ (len b t d : Nat), b + len = n → d < 2 ^ b → t < 2 ^ n →
      covers t d seed → (∀ m, covers t d m → table m ≠ LOGIC_FALSE) →
      (expandBitsAux table (List.range' b len) t d).1 < 2 ^ n ∧
      (expandBitsAux table (List.range' b len) t d).2 < 2 ^ n ∧
      covers (expandBitsAux table (List.range' b len) t d).1
        (expandBitsAux table (List.range' b len) t d).2 seed ∧
      ∀ m, covers (expandBitsAux table (List.range' b len) t d).1
        (expandBitsAux table (List.range' b len) t d).2 m → table m ≠ LOGIC_FALSE := by
  intro len
  induction len with
  | zero =>
    intro b t d hbn hd ht hseed hnf
    have hb : b = n := by omega
    subst hb
    exact ⟨ht, hd, hseed, hnf⟩
  | succ len ih =>
    intro b t d hbn hd ht hseed hnf
    rw [List.range'_succ]
    have hbln : b < n := by omega
    have hdb : d < 2 ^ b := hd
    have hy : t ^^^ 2 ^ b < 2 ^ n := xor_two_pow_lt ht hbln
    have hstep : expandBitsAux table (b :: List.range' (b + 1) len) t d =
        (if (expandLoop table (2 ^ b) d b ((t ^^^ 2 ^ b).ldiff d) (2 ^ b)).2 then
           expandBitsAux table (List.range' (b + 1) len)
             (expandLoop table (2 ^ b) d b ((t ^^^ 2 ^ b).ldiff d) (2 ^ b)).1 (d ||| 2 ^ b)
         else expandBitsAux table (List.range' (b + 1) len)
             (expandLoop table (2 ^ b) d b ((t ^^^ 2 ^ b).ldiff d) (2 ^ b)).1 d) := by
      simp only [expandBitsAux, clearBits_eq_ldiff]
    rw [hstep]
    by_cases hex : ∃ m, covers (t ^^^ 2 ^ b) d m ∧ table m = LOGIC_FALSE
    · obtain ⟨m0, hm01, hm02, hm03⟩ := (expandLoop_run table (2 ^ b) hdb (t ^^^ 2 ^ b)).2 hex
      simp only [hm03, if_neg (Bool.false_ne_true)]
      have hm0lt : m0 < 2 ^ n :=
        covers_lt hy (lt_of_lt_of_le hd (Nat.pow_le_pow_right (by omega) (by omega))) hm01
      have ht' : m0 ^^^ 2 ^ b < 2 ^ n := xor_two_pow_lt hm0lt hbln
      have hcovsame : ∀ m, covers (m0 ^^^ 2 ^ b) d m ↔ covers t d m := by
        intro m
        have h1 : (m0 ^^^ 2 ^ b) ||| d = t ||| d := by
          have h2 : m0 ||| d = (t ^^^ 2 ^ b) ||| d := hm01
          have h3 : (m0 ^^^ 2 ^ b) ||| d = ((t ^^^ 2 ^ b) ^^^ 2 ^ b) ||| d := xor_cong_lor h2
          rwa [xor_xor_cancel] at h3
        unfold covers
        rw [h1]
      refine ih (b + 1) (m0 ^^^ 2 ^ b) d (by omega)
        (lt_of_lt_of_le hd (Nat.pow_le_pow_right (by omega) (by omega))) ht'
        ((hcovsame seed).mpr hseed) (fun m hm => hnf m ((hcovsame m).mp hm))
    · have hall : ∀ m, covers (t ^^^ 2 ^ b) d m → table m ≠ LOGIC_FALSE := by
        intro m hm hF
        exact hex ⟨m, hm, hF⟩
      have hrun := (expandLoop_run table (2 ^ b) hdb (t ^^^ 2 ^ b)).1 hall
      rw [hrun]
      simp only [if_pos]
      have hdb_bit : d.testBit b = false := Nat.testBit_lt_two_pow hd
      have ht1 : ((t ^^^ 2 ^ b).ldiff d) < 2 ^ n := ldiff_lt d hy
      have hd' : d ||| 2 ^ b < 2 ^ (b + 1) := lor_two_pow_lt hd
      have hlornew : ((t ^^^ 2 ^ b).ldiff d) ||| (d ||| 2 ^ b) = (t ||| d) ||| 2 ^ b := by
        rw [← Nat.lor_assoc, ldiff_lor_self, Nat.lor_assoc, Nat.lor_comm d (2 ^ b),
          ← Nat.lor_assoc, xor_lor_two_pow, Nat.lor_assoc, Nat.lor_comm (2 ^ b) d,
          ← Nat.lor_assoc]
      have hcovseed : covers ((t ^^^ 2 ^ b).ldiff d) (d ||| 2 ^ b) seed := by
        show seed ||| (d ||| 2 ^ b) = _
        rw [hlornew, ← Nat.lor_assoc]
        rw [(show seed ||| d = t ||| d from hseed)]
      have hnf' : ∀ m, covers ((t ^^^ 2 ^ b).ldiff d) (d ||| 2 ^ b) m →
          table m ≠ LOGIC_FALSE := by
        intro m hm
        rcases covers_enlarge_cases hdb_bit hm with h | h
        · exact hnf m h
        · exact hall m h
      exact ih (b + 1) ((t ^^^ 2 ^ b).ldiff d) (d ||| 2 ^ b) (by omega) hd' ht1
        hcovseed hnf'

/-- The expansion of a seeded term: the result is well formed, covers the
seed, and covers no `LOGIC_FALSE` minterm. -/
theorem expandTerm_inv {table : Nat → triLogic} {n seed : Nat}
    (hseed : seed < 2 ^ n) (hTrue : table seed = LOGIC_TRUE) :
    (expandTerm table n seed).1 < 2 ^ n ∧
    (expandTerm table n seed).2 < 2 ^ n ∧
    covers (expandTerm table n seed).1 (expandTerm table n seed).2 seed ∧
    ∀ m, covers (expandTerm table n seed).1 (expandTerm table n seed).2 m →
      table m ≠ LOGIC_FALSE := by
  have h := expandBitsAux_inv table seed n 0 seed 0
    (by omega) (by simp) hseed rfl
    (by
      intro m hm
      have : m = seed := by
        have h := hm
        unfold covers at h
        simpa [Nat.or_zero] using h
      rw [this, hTrue]
      exact fun h => triLogic.noConfusion h)
  rw [expandTerm, List.range_eq_range']
  exact h

/-- Well-formedness of a stored term: both words fit in `numVars` bits. -/
def WFterm (n : Nat) (td : Nat × Nat) : Prop := td.1 < 2 ^ n ∧ td.2 < 2 ^ n

/-- A term covering no `LOGIC_FALSE` minterm of the truth table. -/
def NoFalse (table : Nat → triLogic) (td : Nat × Nat) : Prop :=
  ∀ m, covers td.1 td.2 m → table m ≠ LOGIC_FALSE

/-- Invariants of the main scan loop of `ReduceLogic`: the produced term
list extends the accumulator, all terms are well formed and cover no
`LOGIC_FALSE` minterm, and every scanned `LOGIC_TRUE` minterm ends up
covered. -/
theorem reduceLoop_inv (table : Nat → triLogic) (n : Nat) :
    ∀ (idxs : List Nat) (L : List (Nat × Nat)) (res : Nat → Bool),
      (∀ i ∈ idxs, i < 2 ^ n) →
      (∀ td ∈ L, WFterm n td ∧ NoFalse table td) →
      (∀ m, res m = true → ∃ td ∈ L, covers td.1 td.2 m) →
      (∀ td ∈ L, td ∈ reduceLoop table n idxs L res) ∧
      (∀ td ∈ reduceLoop table n idxs L res, WFterm n td ∧ NoFalse table td) ∧
      (∀ i ∈ idxs, table i = LOGIC_TRUE →
        ∃ td ∈ reduceLoop table n idxs L res, covers td.1 td.2 i) := by
  intro idxs
  induction idxs with
  | nil =>
    intro L res _ hL _
    refine ⟨fun td h => by simpa [reduceLoop] using h, ?_, ?_⟩
    · intro td h
      exact hL td (by simpa [reduceLoop] using h)
    · intro i h
      cases h
  | cons i rest ih =>
    intro L res hidx hL hres
    have hi : i < 2 ^ n := hidx i (List.mem_cons_self i rest)
    have hrest : ∀ j ∈ rest, j < 2 ^ n := fun j hj => hidx j (List.mem_cons_of_mem i hj)
    by_cases hcond : table i = LOGIC_TRUE ∧ res i = false
    · have hstep : reduceLoop table n (i :: rest) L res =
          reduceLoop table n rest
            (L ++ [((resolveLoop (expandTerm table n i).2 n
                ((expandTerm table n i).1.ldiff (expandTerm table n i).2) res (2 ^ n)).2,
              (expandTerm table n i).2)])
            (resolveLoop (expandTerm table n i).2 n
              ((expandTerm table n i).1.ldiff (expandTerm table n i).2) res (2 ^ n)).1 := by
        simp only [reduceLoop, if_pos hcond, clearBits_eq_ldiff]
      obtain ⟨hE1, hE2, hE3, hE4⟩ := expandTerm_inv hi hcond.1
      obtain ⟨hR1, hR2⟩ := resolveLoop_run hE2 (expandTerm table n i).1 res
      have hnew : WFterm n ((resolveLoop (expandTerm table n i).2 n
          ((expandTerm table n i).1.ldiff (expandTerm table n i).2) res (2 ^ n)).2,
            (expandTerm table n i).2) ∧
          NoFalse table ((resolveLoop (expandTerm table n i).2 n
            ((expandTerm table n i).1.ldiff (expandTerm table n i).2) res (2 ^ n)).2,
              (expandTerm table n i).2) := by
        rw [hR1]
        refine ⟨⟨ldiff_lt _ hE1, hE2⟩, ?_⟩
        intro m hm
        exact hE4 m ((covers_ldiff _ _ _).mp hm)
      have hL1 : ∀ td ∈ L ++ [((resolveLoop (expandTerm table n i).2 n
          ((expandTerm table n i).1.ldiff (expandTerm table n i).2) res (2 ^ n)).2,
            (expandTerm table n i).2)], WFterm n td ∧ NoFalse table td := by
        intro td htd
        rcases List.mem_append.mp htd with h | h
        · exact hL td h
        · rw [List.mem_singleton.mp h]
          exact hnew
      have hres1 : ∀ m, (resolveLoop (expandTerm table n i).2 n
          ((expandTerm table n i).1.ldiff (expandTerm table n i).2) res (2 ^ n)).1 m = true →
          ∃ td ∈ L ++ [((resolveLoop (expandTerm table n i).2 n
            ((expandTerm table n i).1.ldiff (expandTerm table n i).2) res (2 ^ n)).2,
              (expandTerm table n i).2)], covers td.1 td.2 m := by
        intro m hm
        rcases (hR2 m).mp hm with h | h
        · obtain ⟨td, htd1, htd2⟩ := hres m h
          exact ⟨td, List.mem_append.mpr (Or.inl htd1), htd2⟩
        · refine ⟨_, List.mem_append.mpr (Or.inr (List.mem_singleton.mpr rfl)), ?_⟩
          show covers (resolveLoop (expandTerm table n i).2 n
            ((expandTerm table n i).1.ldiff (expandTerm table n i).2) res (2 ^ n)).2
              (expandTerm table n i).2 m
          rw [hR1]
          exact (covers_ldiff _ _ _).mpr h
      obtain ⟨ih1, ih2, ih3⟩ := ih
        (L ++ [((resolveLoop (expandTerm table n i).2 n
            ((expandTerm table n i).1.ldiff (expandTerm table n i).2) res (2 ^ n)).2,
          (expandTerm table n i).2)])
        ((resolveLoop (expandTerm table n i).2 n
          ((expandTerm table n i).1.ldiff (expandTerm table n i).2) res (2 ^ n)).1)
        hrest hL1 hres1
      rw [hstep]
      refine ⟨?_, ih2, ?_⟩
      · intro td htd
        exact ih1 td (List.mem_append.mpr (Or.inl htd))
      · intro j hj htrue
        rcases List.mem_cons.mp hj with h | h
        · subst h
          refine ⟨_, ih1 _ (List.mem_append.mpr (Or.inr (List.mem_singleton.mpr rfl))), ?_⟩
          show covers (resolveLoop (expandTerm table n j).2 n
            ((expandTerm table n j).1.ldiff (expandTerm table n j).2) res (2 ^ n)).2
              (expandTerm table n j).2 j
          rw [hR1]
          exact (covers_ldiff _ _ _).mpr hE3
        · exact ih3 j h htrue
    · have hstep : reduceLoop table n (i :: rest) L res =
          reduceLoop table n rest L res := by
        simp only [reduceLoop, if_neg hcond]
      obtain ⟨ih1, ih2, ih3⟩ := ih L res hrest hL hres
      rw [hstep]
      refine ⟨ih1, ih2, ?_⟩
      intro j hj htrue
      rcases List.mem_cons.mp hj with h | h
      · subst h
        have hresj : res j = true := by
          by_contra hfalse
          exact hcond ⟨htrue, by revert hfalse; cases res j <;> simp⟩
        obtain ⟨td, htd1, htd2⟩ := hres j hresj
        exact ⟨td, ih1 td htd1, htd2⟩
      · exact ih3 j h htrue

theorem countCov_nil (m : Nat) : countCov [] m = 0 := rfl

theorem countCov_append (A B : List (Nat × Nat)) (m : Nat) :
    countCov (A ++ B) m = countCov A m + countCov B m :=
  List.countP_append _ A B

theorem countCov_cons (a : Nat × Nat) (B : List (Nat × Nat)) (m : Nat) :
    countCov (a :: B) m = countCov B m + (if covers a.1 a.2 m then 1 else 0) := by
  rw [countCov, List.countP_cons]
  by_cases h : covers a.1 a.2 m <;> simp [countCov, h]

theorem countCov_eq_zero {L : List (Nat × Nat)} {m : Nat} :
    countCov L m = 0 ↔ ∀ td ∈ L, ¬ covers td.1 td.2 m := by
  rw [countCov, List.countP_eq_zero]
  constructor
  · intro h td htd hcov
    exact h td htd (by simpa using hcov)
  · intro h td htd
    simpa using h td htd

theorem countCov_pos {L : List (Nat × Nat)} {m : Nat} :
    1 ≤ countCov L m ↔ ∃ td ∈ L, covers td.1 td.2 m := by
  rw [countCov]
  constructor
  · intro h
    have h0 : 0 < List.countP (fun td => decide (covers td.1 td.2 m)) L := by omega
    obtain ⟨td, htd, hp⟩ := List.countP_pos.mp h0
    exact ⟨td, htd, by simpa using hp⟩
  · rintro ⟨td, htd, hp⟩
    have h0 : 0 < List.countP (fun td => decide (covers td.1 td.2 m)) L :=
      List.countP_pos.mpr ⟨td, htd, by simpa using hp⟩
    omega

/-- The reference-count pass adds to each minterm the number of terms
covering it. -/
theorem buildRefCounts_spec {n : Nat} :
    ∀ (L : List (Nat × Nat)) (c : Nat → Nat), (∀ td ∈ L, td.2 < 2 ^ n) →
      ∀ m, buildRefCounts n L c m = c m + countCov L m := by
  intro L
  induction L with
  | nil => intro c _ m; simp [buildRefCounts, countCov_nil]
  | cons td rest ih =>
    intro c hwf m
    have hd : td.2 < 2 ^ n := hwf td (List.mem_cons_self td rest)
    have hstep : buildRefCounts n (td :: rest) c =
        buildRefCounts n rest (refCountLoop td.2 n (td.1.ldiff td.2) c (2 ^ n)).1 := by
      simp only [buildRefCounts, clearBits_eq_ldiff]
    rw [hstep, ih _ (fun td2 h2 => hwf td2 (List.mem_cons_of_mem td h2)) m,
      (refCountLoop_run hd td.1 c).2 m, countCov_cons]
    omega

/-- Invariants of the prime-implicant filter loop: the reference counts
track coverage by the kept prefix plus the unprocessed terms, every kept
term has a privately covered minterm, coverage of every minterm is
preserved, and every surviving term covers the same set as one of the
original terms. -/
theorem filterLoop_inv {n : Nat} :
    ∀ (rest : List (Nat × Nat)) (c : Nat → Nat) (kept : List (Nat × Nat)),
      (∀ td ∈ rest, WFterm n td) →
      (∀ td ∈ kept, WFterm n td) →
      (∀ m, c m = countCov (kept ++ rest) m) →
      (∀ i, (hi : i < kept.length) → ∃ m, m < 2 ^ n ∧
        covers kept[i].1 kept[i].2 m ∧
        (∀ j, (hj : j < kept.length) → j ≠ i → ¬ covers kept[j].1 kept[j].2 m) ∧
        (∀ td ∈ rest, ¬ covers td.1 td.2 m)) →
      (∀ m, 1 ≤ countCov (kept ++ rest) m → 1 ≤ countCov (filterLoop n rest c kept) m) ∧
      (∀ td ∈ filterLoop n rest c kept, ∃ td2 ∈ kept ++ rest,
        ∀ m, covers td.1 td.2 m ↔ covers td2.1 td2.2 m) ∧
      (∀ td ∈ filterLoop n rest c kept, WFterm n td) ∧
      (∀ i, (hi : i < (filterLoop n rest c kept).length) → ∃ m, m < 2 ^ n ∧
        covers (filterLoop n rest c kept)[i].1 (filterLoop n rest c kept)[i].2 m ∧
        ∀ j, (hj : j < (filterLoop n rest c kept).length) → j ≠ i →
          ¬ covers (filterLoop n rest c kept)[j].1 (filterLoop n rest c kept)[j].2 m) := by
  intro rest
  induction rest with
  | nil =>
    intro c kept _ hkWF hc huniq
    have hF : filterLoop n [] c kept = kept := rfl
    rw [hF]
    refine ⟨fun m h => by simpa using h, fun td htd => ⟨td, by simpa using htd, fun m => Iff.rfl⟩,
      hkWF, ?_⟩
    intro i hi
    obtain ⟨m, hm1, hm2, hm3, _⟩ := huniq i hi
    exact ⟨m, hm1, hm2, hm3⟩
  | cons td rest ih =>
    intro c kept hrWF hkWF hc huniq
    have hwf : WFterm n td := hrWF td (List.mem_cons_self td rest)
    have hrWF' : ∀ td2 ∈ rest, WFterm n td2 := fun td2 h =>
      hrWF td2 (List.mem_cons_of_mem td h)
    have hstep : filterLoop n (td :: rest) c kept =
        (if (primeTestLoop c td.2 n (td.1.ldiff td.2) (2 ^ n)).2 then
           filterLoop n rest c
             (kept ++ [((primeTestLoop c td.2 n (td.1.ldiff td.2) (2 ^ n)).1, td.2)])
         else filterLoop n rest (decRefLoop td.2 n (td.1.ldiff td.2) c (2 ^ n)).1 kept) := by
      simp only [filterLoop, clearBits_eq_ldiff]
    by_cases hex : ∃ m, covers td.1 td.2 m ∧ c m = 1
    · obtain ⟨m0, hm01, hm02, hm03⟩ := (primeTestLoop_run c hwf.2 td.1).2 hex
      rw [hstep, hm03]
      simp only [if_pos]
      have hm0lt : m0 < 2 ^ n := covers_lt hwf.1 hwf.2 hm01
      have hcov_eq : ∀ x, covers m0 td.2 x ↔ covers td.1 td.2 x := by
        intro x
        show x ||| td.2 = m0 ||| td.2 ↔ x ||| td.2 = td.1 ||| td.2
        rw [(show m0 ||| td.2 = td.1 ||| td.2 from hm01)]
      have hcount_eq : ∀ m, countCov ((kept ++ [(m0, td.2)]) ++ rest) m =
          countCov (kept ++ td :: rest) m := by
        intro m
        rw [countCov_append, countCov_append, countCov_append, countCov_cons, countCov_cons,
          countCov_nil]
        have hind : (if covers (m0, td.2).1 (m0, td.2).2 m then 1 else 0) =
            (if covers td.1 td.2 m then 1 else 0) := by
          show (if covers m0 td.2 m then 1 else 0) = (if covers td.1 td.2 m then 1 else 0)
          by_cases h : covers td.1 td.2 m
          · rw [if_pos h, if_pos ((hcov_eq m).mpr h)]
          · rw [if_neg h, if_neg (fun h2 => h ((hcov_eq m).mp h2))]
        omega
      have hkWF1 : ∀ td2 ∈ kept ++ [(m0, td.2)], WFterm n td2 := by
        intro td2 h2
        rcases List.mem_append.mp h2 with h | h
        · exact hkWF td2 h
        · rw [List.mem_singleton.mp h]
          exact ⟨hm0lt, hwf.2⟩
      have hc1 : ∀ m, c m = countCov ((kept ++ [(m0, td.2)]) ++ rest) m := by
        intro m
        rw [hcount_eq m]
        exact hc m
      have hcount0 : countCov kept m0 = 0 ∧ countCov rest m0 = 0 := by
        have h := hc m0
        rw [hm02] at h
        rw [countCov_append, countCov_cons] at h
        rw [if_pos hm01] at h
        constructor <;> omega
      have huniq1 : ∀ i, (hi : i < (kept ++ [(m0, td.2)]).length) → ∃ m, m < 2 ^ n ∧
          covers (kept ++ [(m0, td.2)])[i].1 (kept ++ [(m0, td.2)])[i].2 m ∧
          (∀ j, (hj : j < (kept ++ [(m0, td.2)]).length) → j ≠ i →
            ¬ covers (kept ++ [(m0, td.2)])[j].1 (kept ++ [(m0, td.2)])[j].2 m) ∧
          (∀ td2 ∈ rest, ¬ covers td2.1 td2.2 m) := by
        intro i hi
        have hlen : (kept ++ [(m0, td.2)]).length = kept.length + 1 := by simp
        by_cases hik : i < kept.length
        · obtain ⟨m, hm1, hm2, hm3, hm4⟩ := huniq i hik
          have hgi : (kept ++ [(m0, td.2)])[i] = kept[i] := List.getElem_append_left hik
          refine ⟨m, hm1, by rw [hgi]; exact hm2, ?_, ?_⟩
          · intro j hj hji
            by_cases hjk : j < kept.length
            · rw [List.getElem_append_left hjk]
              exact hm3 j hjk hji
            · have hjlast : j = kept.length := by omega
              rw [List.getElem_concat_length kept _ j hjlast]
              show ¬ covers m0 td.2 m
              intro h
              exact hm4 td (List.mem_cons_self td rest) ((hcov_eq m).mp h)
          · intro td2 h2
            exact hm4 td2 (List.mem_cons_of_mem td h2)
        · have hilast : i = kept.length := by omega
          have hgi : (kept ++ [(m0, td.2)])[i] = (m0, td.2) :=
            List.getElem_concat_length kept _ i hilast _
          refine ⟨m0, hm0lt, by rw [hgi]; exact rfl, ?_, ?_⟩
          · intro j hj hji
            have hjk : j < kept.length := by omega
            rw [List.getElem_append_left hjk]
            intro h
            have h0 : ∀ td2 ∈ kept, ¬ covers td2.1 td2.2 m0 := countCov_eq_zero.mp hcount0.1
            exact h0 kept[j] (List.getElem_mem hjk) h
          · intro td2 h2 h
            have h0 : ∀ td3 ∈ rest, ¬ covers td3.1 td3.2 m0 := countCov_eq_zero.mp hcount0.2
            exact h0 td2 h2 h
      obtain ⟨f1, f2, f3, f4⟩ := ih c (kept ++ [(m0, td.2)]) hrWF' hkWF1 hc1 huniq1
      refine ⟨?_, ?_, f3, f4⟩
      · intro m hm
        exact f1 m (by rw [hcount_eq m]; exact hm)
      · intro td2 h2
        obtain ⟨td3, htd3, hiff⟩ := f2 td2 h2
        rcases List.mem_append.mp htd3 with h3 | h3
        · rcases List.mem_append.mp h3 with h4 | h4
          · exact ⟨td3, List.mem_append.mpr (Or.inl h4), hiff⟩
          · refine ⟨td, List.mem_append.mpr (Or.inr (List.mem_cons_self td rest)), ?_⟩
            intro m
            rw [hiff m]
            rw [List.mem_singleton.mp h4]
            exact hcov_eq m
        · exact ⟨td3, List.mem_append.mpr (Or.inr (List.mem_cons_of_mem td h3)), hiff⟩
    · have hall : ∀ m, covers td.1 td.2 m → c m ≠ 1 := by
        intro m hm h1
        exact hex ⟨m, hm, h1⟩
      have hrun := (primeTestLoop_run c hwf.2 td.1).1 hall
      rw [hstep, hrun]
      simp only [if_neg (Bool.false_ne_true)]
      have hdec := (decRefLoop_run hwf.2 td.1 c).2
      have hc' : ∀ m, (decRefLoop td.2 n (td.1.ldiff td.2) c (2 ^ n)).1 m =
          countCov (kept ++ rest) m := by
        intro m
        rw [hdec m, hc m, countCov_append, countCov_append, countCov_cons]
        by_cases h : covers td.1 td.2 m
        · rw [if_pos h]
          omega
        · rw [if_neg h]
          omega
      have huniq' : ∀ i, (hi : i < kept.length) → ∃ m, m < 2 ^ n ∧
          covers kept[i].1 kept[i].2 m ∧
          (∀ j, (hj : j < kept.length) → j ≠ i → ¬ covers kept[j].1 kept[j].2 m) ∧
          (∀ td2 ∈ rest, ¬ covers td2.1 td2.2 m) := by
        intro i hi
        obtain ⟨m, hm1, hm2, hm3, hm4⟩ := huniq i hi
        exact ⟨m, hm1, hm2, hm3, fun td2 h2 => hm4 td2 (List.mem_cons_of_mem td h2)⟩
      obtain ⟨f1, f2, f3, f4⟩ := ih _ kept hrWF' hkWF hc' huniq'
      refine ⟨?_, ?_, f3, f4⟩
      · intro m hm
        refine f1 m ?_
        by_cases h : covers td.1 td.2 m
        · have hcm : c m = countCov (kept ++ td :: rest) m := hc m
          have hge : 1 ≤ c m := by rw [hcm]; exact hm
          have hne : c m ≠ 1 := hall m h
          have h2 : countCov (kept ++ td :: rest) m =
              countCov (kept ++ rest) m + 1 := by
            rw [countCov_append, countCov_append, countCov_cons, if_pos h]
            omega
          rw [hcm, h2] at hne hge
          omega
        · have h2 : countCov (kept ++ td :: rest) m = countCov (kept ++ rest) m := by
            rw [countCov_append, countCov_append, countCov_cons, if_neg h]
            omega
          rw [← h2]
          exact hm
      · intro td2 h2
        obtain ⟨td3, htd3, hiff⟩ := f2 td2 h2
        rcases List.mem_append.mp htd3 with h3 | h3
        · exact ⟨td3, List.mem_append.mpr (Or.inl h3), hiff⟩
        · exact ⟨td3, List.mem_append.mpr (Or.inr (List.mem_cons_of_mem td h3)), hiff⟩

/-- For `numVars < W` the W-bit computation `1 << numVars` is exact. -/
theorem sizeTruthtable_exact {W n : Nat} (hnW : n < W) : 2 ^ n % 2 ^ W = 2 ^ n :=
  Nat.mod_eq_of_lt (Nat.pow_lt_pow_right (by omega) hnW)

/-- Full functional invariant of the algorithmic core for `numVars < W`:
all result terms are well formed, no result term covers a `LOGIC_FALSE`
minterm, every `LOGIC_TRUE` minterm is covered by some result term, and
every result term privately covers some minterm. -/
theorem ReduceLogic_inv (W : Nat) (table : Nat → triLogic) {n : Nat} (hnW : n < W) :
    (∀ td ∈ ReduceLogic W table n, WFterm n td) ∧
    (∀ td ∈ ReduceLogic W table n, NoFalse table td) ∧
    (∀ m, m < 2 ^ n → table m = LOGIC_TRUE →
      ∃ td ∈ ReduceLogic W table n, covers td.1 td.2 m) ∧
    (∀ i, (hi : i < (ReduceLogic W table n).length) → ∃ m, m < 2 ^ n ∧
      covers (ReduceLogic W table n)[i].1 (ReduceLogic W table n)[i].2 m ∧
      ∀ j, (hj : j < (ReduceLogic W table n).length) → j ≠ i →
        ¬ covers (ReduceLogic W table n)[j].1 (ReduceLogic W table n)[j].2 m) := by
  have hL : ReduceLogic W table n =
      RemoveNonprimeImplicants n
        (reduceLoop table n (List.range (2 ^ n)) [] (fun _ => false)) := by
    rw [ReduceLogic]
    rw [sizeTruthtable_exact hnW]
  obtain ⟨_, hS1, hS2⟩ := reduceLoop_inv table n
    (List.range (2 ^ n)) [] (fun _ => false)
    (fun i hi => List.mem_range.mp hi)
    (fun td htd => absurd htd (List.not_mem_nil td))
    (fun m hm => absurd hm (Bool.false_ne_true))
  have hWF0 : ∀ td ∈ reduceLoop table n (List.range (2 ^ n)) [] (fun _ => false),
      WFterm n td := fun td htd => (hS1 td htd).1
  have hdc0 : ∀ td ∈ reduceLoop table n (List.range (2 ^ n)) [] (fun _ => false),
      td.2 < 2 ^ n := fun td htd => (hS1 td htd).1.2
  have hc0 : ∀ m, buildRefCounts n
      (reduceLoop table n (List.range (2 ^ n)) [] (fun _ => false)) (fun _ => 0) m =
      countCov ([] ++ reduceLoop table n (List.range (2 ^ n)) [] (fun _ => false)) m := by
    intro m
    rw [buildRefCounts_spec _ _ hdc0 m, List.nil_append]
    omega
  obtain ⟨f1, f2, f3, f4⟩ := filterLoop_inv
    (reduceLoop table n (List.range (2 ^ n)) [] (fun _ => false))
    (buildRefCounts n (reduceLoop table n (List.range (2 ^ n)) [] (fun _ => false))
      (fun _ => 0)) []
    hWF0 (fun td htd => absurd htd (List.not_mem_nil td)) hc0
    (fun i hi => absurd hi (by simp))
  have hRNP : RemoveNonprimeImplicants n
      (reduceLoop table n (List.range (2 ^ n)) [] (fun _ => false)) =
      filterLoop n (reduceLoop table n (List.range (2 ^ n)) [] (fun _ => false))
        (buildRefCounts n (reduceLoop table n (List.range (2 ^ n)) [] (fun _ => false))
          (fun _ => 0)) [] := rfl
  rw [hL, hRNP]
  refine ⟨f3, ?_, ?_, f4⟩
  · intro td htd
    obtain ⟨td2, htd2, hiff⟩ := f2 td htd
    rw [List.nil_append] at htd2
    intro m hm
    exact (hS1 td2 htd2).2 m ((hiff m).mp hm)
  · intro m hmn htrue
    obtain ⟨td, htd, hcov⟩ := hS2 m (List.mem_range.mpr hmn) htrue
    have h1 : 1 ≤ countCov ([] ++
        reduceLoop table n (List.range (2 ^ n)) [] (fun _ => false)) m := by
      rw [List.nil_append]
      exact countCov_pos.mpr ⟨td, htd, hcov⟩
    exact countCov_pos.mp (f1 m h1)

/-- The struct evaluator, on a term set over `numVars < W` bits and an
input below `2 ^ numVars`, computes the existential cover test. -/
theorem EvaluateSumOfProducts_spec {W n : Nat} (hnW : n < W) (L : List (Nat × Nat))
    (input : Nat) (hin : input < 2 ^ n) :
    EvaluateSumOfProducts W
        ⟨n, L.length, some (L.map Prod.fst), some (L.map Prod.snd)⟩ input =
      if ∃ td ∈ L, covers td.1 td.2 input then LOGIC_TRUE else LOGIC_FALSE := by
  have hstep : EvaluateSumOfProducts W
      ⟨n, L.length, some (L.map Prod.fst), some (L.map Prod.snd)⟩ input =
      (if (List.range L.length).any (fun iTerm =>
        ((input &&& ((2 ^ n % 2 ^ W + (2 ^ W - 1)) % 2 ^ W)) |||
            ((L.map Prod.snd).getD iTerm 0)) ==
          ((L.map Prod.fst).getD iTerm 0 ||| ((L.map Prod.snd).getD iTerm 0)))
       then LOGIC_TRUE else LOGIC_FALSE) := rfl
  have hmask : (2 ^ n % 2 ^ W + (2 ^ W - 1)) % 2 ^ W = 2 ^ n - 1 := by
    rw [sizeTruthtable_exact hnW]
    have h1 : (1 : Nat) ≤ 2 ^ n := Nat.pos_pow_of_pos n (by omega)
    have h2 : 2 ^ n < 2 ^ W := Nat.pow_lt_pow_right (by omega) hnW
    have h3 : 2 ^ n + (2 ^ W - 1) = 2 ^ W + (2 ^ n - 1) := by omega
    rw [h3, Nat.add_mod_left, Nat.mod_eq_of_lt (by omega)]
  have hconstr : input &&& (2 ^ n - 1) = input := by
    refine Nat.eq_of_testBit_eq fun q => ?_
    rw [Nat.testBit_land, Nat.testBit_two_pow_sub_one]
    by_cases hq : q < n
    · simp [hq]
    · have : input.testBit q = false :=
        Nat.testBit_lt_two_pow
          (lt_of_lt_of_le hin (Nat.pow_le_pow_right (by omega) (by omega)))
      simp [hq, this]
  rw [hstep, hmask, hconstr]
  by_cases hex : ∃ td ∈ L, covers td.1 td.2 input
  · rw [if_pos hex]
    obtain ⟨td, htd, hcov⟩ := hex
    obtain ⟨i, hi, hig⟩ := List.mem_iff_getElem.mp htd
    have hpred : ((input ||| ((L.map Prod.snd).getD i 0)) ==
        ((L.map Prod.fst).getD i 0 ||| ((L.map Prod.snd).getD i 0))) = true := by
      have hi2 : i < (L.map Prod.snd).length := by simpa using hi
      have hi1 : i < (L.map Prod.fst).length := by simpa using hi
      rw [List.getD_eq_getElem _ _ hi2, List.getD_eq_getElem _ _ hi1,
        List.getElem_map, List.getElem_map, hig]
      exact beq_iff_eq.mpr hcov
    rw [if_pos]
    exact List.any_eq_true.mpr ⟨i, List.mem_range.mpr hi, hpred⟩
  · rw [if_neg hex, if_neg]
    intro hany
    obtain ⟨i, hi, hpred⟩ := List.any_eq_true.mp hany
    have hiL : i < L.length := List.mem_range.mp hi
    have hi2 : i < (L.map Prod.snd).length := by simpa using hiL
    have hi1 : i < (L.map Prod.fst).length := by simpa using hiL
    rw [List.getD_eq_getElem _ _ hi2, List.getD_eq_getElem _ _ hi1,
      List.getElem_map, List.getElem_map] at hpred
    exact hex ⟨L[i], List.getElem_mem hiL, beq_iff_eq.mp hpred⟩

/-- Scenario A truth table: numVars = 3, `[T,T,F,T,T,F,F,F]` indexed
MSB-first as A,B,C (the README example). -/
def tblScenarioA : Nat → triLogic := fun m =>
  [LOGIC_TRUE, LOGIC_TRUE, LOGIC_FALSE, LOGIC_TRUE,
   LOGIC_TRUE, LOGIC_FALSE, LOGIC_FALSE, LOGIC_FALSE].getD m LOGIC_FALSE

/-- The string `A'C + B'C'` (complement marks written via `tickString`). -/
def scenarioAString : String :=
  "A" ++ tickString ++ "C + B" ++ tickString ++ "C" ++ tickString

/-- Truth table over 2 variables with value `[F,T,T,T]` (the function
A + B), on which two overlapping prime implicants survive. -/
def tblC3 : Nat → triLogic := fun m => if m = 0 then LOGIC_FALSE else LOGIC_TRUE

/-- The constant-true truth table. -/
def tblAllTrue : Nat → triLogic := fun _ => LOGIC_TRUE

/-- C4: Scenario A.  For numVars = 3 and truth table `[T,T,F,T,T,F,F,F]`
(MSB-first variables A, B, C), `ReduceLogic` returns exactly the two terms
`(fixedBits 001, dontCares 010)` and `(fixedBits 000, dontCares 100)`.
The first is semantically A'C (A = 0, C = 1, B free: bit 2 clear, bit 0
set, bit 1 free), the second is B'C' (B = 0, C = 0, A free), as the two
equivalence conjuncts state, and `GenerateEquationString` with
auto-generated variable names renders the string `A'C + B'C'`. -/
theorem claim4_scenarioA :
    ReduceLogicC 32 (some tblScenarioA) ⟨3, 0, none, none⟩ =
      (STATUS_OKAY, ⟨3, 2, some [1, 0], some [2, 4]⟩) ∧
    (∀ m, m < 8 → (covers 1 2 m ↔ (m.testBit 2 = false ∧ m.testBit 0 = true))) ∧
    (∀ m, m < 8 → (covers 0 4 m ↔ (m.testBit 1 = false ∧ m.testBit 0 = false))) ∧
    GenerateEquationString ⟨3, 2, some [1, 0], some [2, 4]⟩ none =
      (STATUS_OKAY, scenarioAString) := by
  refine ⟨by decide, ?_, ?_, by decide⟩ <;> decide

/-- C3 counterexample: on the accepted input numVars = 2,
truthTable = `[F,T,T,T]`, minterm 3 has value True but is covered by two
terms of the returned set, not exactly one. -/
theorem claim3_counterexample :
    (ReduceLogicC 32 (some tblC3) ⟨2, 0, none, none⟩).1 = STATUS_OKAY ∧
    tblC3 3 = LOGIC_TRUE ∧ 3 < 2 ^ 2 ∧
    countCov (ReduceLogic 32 tblC3 2) 3 = 2 := by
  refine ⟨by decide, by decide, by decide, by decide⟩

/-- C5: the free-bit enumerator contract.  For a term `(fixedBits,
freeMask)` with the free mask confined to the low `numVars` bits, the
cycling loop's trace, started (as every call site does) from `fixedBits`
with all free bits cleared and given fuel `2 ^ numVars`, terminates after
exactly `2 ^ popcount(freeMask)` steps: it visits that many pairwise
distinct minterms, exactly the minterms the term covers, the `j`-th
visited minterm is the `j`-th binary-counter combination deposited on the
free-bit positions in increasing (least-significant-first) order, and
advancing past the last minterm wraps back to the starting pattern with
the loop's exit index hitting the wrap bound. -/
theorem claim5_enumerator (numVars freeMask fixedBits : Nat)
    (hmask : freeMask < 2 ^ numVars) :
    (dcEnum freeMask numVars (clearBits fixedBits freeMask) (2 ^ numVars)).length =
        2 ^ ((List.range numVars).countP (fun i => freeMask.testBit i)) ∧
    (dcEnum freeMask numVars (clearBits fixedBits freeMask) (2 ^ numVars)).Nodup ∧
    (∀ m, m ∈ dcEnum freeMask numVars (clearBits fixedBits freeMask) (2 ^ numVars) ↔
      covers fixedBits freeMask m) ∧
    (∀ j, j < (dcEnum freeMask numVars (clearBits fixedBits freeMask) (2 ^ numVars)).length →
      (dcEnum freeMask numVars (clearBits fixedBits freeMask) (2 ^ numVars)).getD j 0 =
        clearBits fixedBits freeMask ||| deposit (dcPos freeMask numVars) j) ∧
    dcNext freeMask numVars
        ((dcEnum freeMask numVars (clearBits fixedBits freeMask) (2 ^ numVars)).getD
          ((dcEnum freeMask numVars (clearBits fixedBits freeMask) (2 ^ numVars)).length - 1) 0) =
      (clearBits fixedBits freeMask, numVars) := by
  rw [clearBits_eq_ldiff]
  have hpos : (0 : Nat) < 2 ^ (dcPos freeMask numVars).length :=
    Nat.pos_pow_of_pos _ (by omega)
  have hE := dcEnum_spec (ldiff_base fixedBits) (2 ^ numVars) 0
    hpos (le_trans (by omega) (dcPos_len_le freeMask numVars))
  rw [← ldiff_eq_base fixedBits freeMask numVars] at hE
  rw [hE, Nat.sub_zero, ← List.range_eq_range']
  have hcnt : (dcPos freeMask numVars).length =
      (List.range numVars).countP (fun i => freeMask.testBit i) := by
    rw [dcPos, List.countP_eq_length_filter]
  constructor
  · rw [List.length_map, List.length_range, hcnt]
  constructor
  · refine List.Nodup.map_on ?_ (List.nodup_range _)
    intro j1 h1 j2 h2 he
    exact deposit_inj fixedBits j1 j2 (List.mem_range.mp h1) (List.mem_range.mp h2) he
  constructor
  · intro m
    rw [covers_iff_deposit_ldiff hmask fixedBits m]
    constructor
    · intro hm
      obtain ⟨j, hj, hje⟩ := List.mem_map.mp hm
      exact ⟨j, List.mem_range.mp hj, hje.symm⟩
    · rintro ⟨j, hj, rfl⟩
      exact List.mem_map.mpr ⟨j, List.mem_range.mpr hj, rfl⟩
  constructor
  · intro j hj
    rw [List.length_map, List.length_range] at hj
    have hj2 : j < (List.map (fun j => fixedBits.ldiff freeMask |||
        deposit (dcPos freeMask numVars) j) (List.range (2 ^ (dcPos freeMask numVars).length))).length := by
      rw [List.length_map, List.length_range]
      exact hj
    rw [List.getD_eq_getElem _ _ hj2, List.getElem_map, List.getElem_range]
  · rw [List.length_map, List.length_range]
    have hlast : 2 ^ (dcPos freeMask numVars).length - 1 <
        (List.map (fun j => fixedBits.ldiff freeMask |||
          deposit (dcPos freeMask numVars) j)
            (List.range (2 ^ (dcPos freeMask numVars).length))).length := by
      rw [List.length_map, List.length_range]
      omega
    rw [List.getD_eq_getElem _ _ hlast, List.getElem_map, List.getElem_range]
    have hk : 2 ^ (dcPos freeMask numVars).length - 1 <
        2 ^ (dcPos freeMask numVars).length := by omega
    obtain ⟨hnx1, hnx2⟩ := dcNext_counter (ldiff_base fixedBits) hk
    have hwrap : ¬ (2 ^ (dcPos freeMask numVars).length - 1 + 1 <
        2 ^ (dcPos freeMask numVars).length) := by omega
    rw [if_neg hwrap] at hnx1
    refine Prod.ext hnx1 (hnx2.mpr hwrap)

/-- C6 counterexample: an absent output struct does not produce
`STATUS_NULL_ARGUMENT` — the C code dereferences the struct pointer
unconditionally, so the call has no defined result at all. -/
theorem claim6_counterexample :
    ReduceLogicOpt 32 (some tblAllTrue) none = none ∧
    ∀ sop, ReduceLogicOpt 32 (some tblAllTrue) none ≠
      some (STATUS_NULL_ARGUMENT, sop) := by
  exact ⟨rfl, fun sop h => Option.noConfusion h⟩

/-- Status classification of the struct-API entry point with a present
truth table: the argument checks in source order. -/
theorem ReduceLogicC_status (W : Nat) (table : Nat → triLogic) (sop : SumOfProducts) :
    (ReduceLogicC W (some table) sop).1 =
      (if sop.numVars < 1 then STATUS_TOO_FEW_VARIABLES
       else if sop.numVars > W then STATUS_TOO_MANY_VARIABLES
       else STATUS_OKAY) := by
  by_cases h1 : sop.numVars < 1
  · simp only [ReduceLogicC, if_pos h1]
  · by_cases h2 : sop.numVars > W
    · simp only [ReduceLogicC, if_neg h1, if_pos h2]
    · simp only [ReduceLogicC, if_neg h1, if_neg h2]

/-- C6 (amended): with the output struct present, `ReduceLogic` returns
`STATUS_TOO_FEW_VARIABLES` exactly when numVars < 1 (given a present truth
table), `STATUS_TOO_MANY_VARIABLES` exactly when numVars > W, and
`STATUS_NULL_ARGUMENT` exactly when the truth table is absent; the three
status values are pairwise distinct.  An absent output struct is not
detected: the call has no defined result (the struct is dereferenced
unconditionally), rather than returning `STATUS_NULL_ARGUMENT`. -/
theorem claim6_error_detection (W : Nat) (table : Nat → triLogic) (sop : SumOfProducts) :
    ((ReduceLogicC W (some table) sop).1 = STATUS_TOO_FEW_VARIABLES ↔ sop.numVars < 1) ∧
    ((ReduceLogicC W (some table) sop).1 = STATUS_TOO_MANY_VARIABLES ↔ sop.numVars > W) ∧
    (∀ t?, (ReduceLogicC W t? sop).1 = STATUS_NULL_ARGUMENT ↔ t? = none) ∧
    ReduceLogicOpt W (some table) none = none ∧
    (STATUS_TOO_FEW_VARIABLES ≠ STATUS_TOO_MANY_VARIABLES ∧
      STATUS_TOO_FEW_VARIABLES ≠ STATUS_NULL_ARGUMENT ∧
      STATUS_TOO_MANY_VARIABLES ≠ STATUS_NULL_ARGUMENT) := by
  refine ⟨?_, ?_, ?_, rfl, by decide, by decide, by decide⟩
  · rw [ReduceLogicC_status]
    by_cases h1 : sop.numVars < 1
    · rw [if_pos h1]
      exact ⟨fun _ => h1, fun _ => rfl⟩
    · rw [if_neg h1]
      by_cases h2 : sop.numVars > W
      · rw [if_pos h2]
        exact ⟨fun h => absurd h (by decide), fun h => absurd h h1⟩
      · rw [if_neg h2]
        exact ⟨fun h => absurd h (by decide), fun h => absurd h h1⟩
  · rw [ReduceLogicC_status]
    by_cases h1 : sop.numVars < 1
    · rw [if_pos h1]
      exact ⟨fun h => absurd h (by decide), fun h => absurd h1 (by omega)⟩
    · rw [if_neg h1]
      by_cases h2 : sop.numVars > W
      · rw [if_pos h2]
        exact ⟨fun _ => h2, fun _ => rfl⟩
      · rw [if_neg h2]
        exact ⟨fun h => absurd h (by decide), fun h => absurd h h2⟩
  · intro t?
    cases t? with
    | none => exact ⟨fun _ => rfl, fun _ => rfl⟩
    | some t =>
      constructor
      · rw [ReduceLogicC_status]
        by_cases h1 : sop.numVars < 1
        · rw [if_pos h1]
          intro h; exact absurd h (by decide)
        · rw [if_neg h1]
          by_cases h2 : sop.numVars > W
          · rw [if_pos h2]
            intro h; exact absurd h (by decide)
          · rw [if_neg h2]
            intro h; exact absurd h (by decide)
      · intro h; exact Option.noConfusion h

/-- C7: atomicity on error.  Whenever `ReduceLogic` returns a status other
than `STATUS_OKAY`, the output struct is left with `numTerms = 0` and both
the `terms` and `dontCares` pointers NULL. -/
theorem claim7_error_state (W : Nat) (table? : Option (Nat → triLogic))
    (sop : SumOfProducts) (h : (ReduceLogicC W table? sop).1 ≠ STATUS_OKAY) :
    (ReduceLogicC W table? sop).2.numTerms = 0 ∧
    (ReduceLogicC W table? sop).2.terms = none ∧
    (ReduceLogicC W table? sop).2.dontCares = none := by
  cases table? with
  | none => exact ⟨rfl, rfl, rfl⟩
  | some table =>
    by_cases h1 : sop.numVars < 1
    · simp [ReduceLogicC, h1]
    · by_cases h2 : sop.numVars > W
      · simp [ReduceLogicC, h1, h2]
      · exact absurd (by simp only [ReduceLogicC, if_neg h1, if_neg h2]) h

/-- C7 witness: a failing call (absent truth table) clears a caller struct
that arrived with stale counts and pointers. -/
theorem claim7_witness :
    (ReduceLogicC 32 none ⟨3, 5, some [7], some [9]⟩).1 ≠ STATUS_OKAY ∧
    ((ReduceLogicC 32 none ⟨3, 5, some [7], some [9]⟩).2.numTerms = 0 ∧
      (ReduceLogicC 32 none ⟨3, 5, some [7], some [9]⟩).2.terms = none ∧
      (ReduceLogicC 32 none ⟨3, 5, some [7], some [9]⟩).2.dontCares = none) :=
  ⟨by decide, claim7_error_state 32 none ⟨3, 5, some [7], some [9]⟩ (by decide)⟩

/-- C9 counterexample: at numVars = W = 32 the call is accepted and
returns `STATUS_OKAY`, but the internal truth-table size `1 << numVars`
truncates to 0 instead of `2 ^ W`, the result has no terms, and the
success guarantee fails: the all-true table's minterm 0 evaluates to
`LOGIC_FALSE`. -/
theorem claim9_counterexample :
    (ReduceLogicC 32 (some tblAllTrue) ⟨32, 0, none, none⟩).1 = STATUS_OKAY ∧
    2 ^ 32 % 2 ^ 32 = 0 ∧
    (ReduceLogicC 32 (some tblAllTrue) ⟨32, 0, none, none⟩).2.numTerms = 0 ∧
    tblAllTrue 0 = LOGIC_TRUE ∧
    EvaluateSumOfProducts 32
      (ReduceLogicC 32 (some tblAllTrue) ⟨32, 0, none, none⟩).2 0 = LOGIC_FALSE := by
  refine ⟨by decide, by decide, by decide, rfl, by decide⟩

/-- C9 (amended): numVars = W is accepted (not rejected as
`STATUS_TOO_MANY_VARIABLES`; the status is `STATUS_OKAY`), but the
internal truth-table size `1 << numVars` overflows: in W-bit arithmetic it
is 0, not `2 ^ W`, so the scan loop never runs and the result is the empty
term set regardless of the truth table — the success guarantees of the
reduce entry point do not hold at this boundary. -/
theorem claim9_boundary (W : Nat) (table : Nat → triLogic) (sop : SumOfProducts)
    (hW : 1 ≤ W) (hn : sop.numVars = W) :
    (ReduceLogicC W (some table) sop).1 = STATUS_OKAY ∧
    (ReduceLogicC W (some table) sop).1 ≠ STATUS_TOO_MANY_VARIABLES ∧
    2 ^ W % 2 ^ W = 0 ∧
    ReduceLogic W table sop.numVars = [] ∧
    (ReduceLogicC W (some table) sop).2.numTerms = 0 := by
  have hempty : ReduceLogic W table sop.numVars = [] := by
    rw [hn, ReduceLogic, Nat.mod_self, List.range_zero]
    rfl
  have h1 : ¬ (sop.numVars < 1) := by omega
  have h2 : ¬ (sop.numVars > W) := by omega
  have hOK : ReduceLogicC W (some table) sop =
      (STATUS_OKAY, ⟨sop.numVars, (ReduceLogic W table sop.numVars).length,
        some ((ReduceLogic W table sop.numVars).map Prod.fst),
        some ((ReduceLogic W table sop.numVars).map Prod.snd)⟩) := by
    simp only [ReduceLogicC, if_neg h1, if_neg h2]
  rw [hOK]
  refine ⟨rfl, ?_, Nat.mod_self _, hempty, ?_⟩
  · intro h
    exact shrinquemStatus.noConfusion h
  · show (ReduceLogic W table sop.numVars).length = 0
    rw [hempty]
    rfl

/-- C9 witness: the boundary theorem at W = 32. -/
theorem claim9_witness :
    (1 ≤ 32 ∧ (⟨32, 0, none, none⟩ : SumOfProducts).numVars = 32) ∧
    ((ReduceLogicC 32 (some tblC3) ⟨32, 0, none, none⟩).1 = STATUS_OKAY ∧
      (ReduceLogicC 32 (some tblC3) ⟨32, 0, none, none⟩).1 ≠ STATUS_TOO_MANY_VARIABLES ∧
      2 ^ 32 % 2 ^ 32 = 0 ∧
      ReduceLogic 32 tblC3 (⟨32, 0, none, none⟩ : SumOfProducts).numVars = [] ∧
      (ReduceLogicC 32 (some tblC3) ⟨32, 0, none, none⟩).2.numTerms = 0) :=
  ⟨⟨by decide, rfl⟩, claim9_boundary 32 tblC3 ⟨32, 0, none, none⟩ (by decide) rfl⟩

/-- C1 counterexample: the claim's range includes numVars = W, where the
internal shift `1 << numVars` overflows.  At W = 32, numVars = 32, with
the all-true table (length `2 ^ 32`), the call succeeds but returns no
terms, and evaluation at minterm 0 (whose table value is `LOGIC_TRUE`,
not a don't-care) yields `LOGIC_FALSE` instead of the table value. -/
theorem claim1_counterexample :
    (1 ≤ 32 ∧ 32 ≤ 32) ∧
    (ReduceLogicC 32 (some tblAllTrue) ⟨32, 0, none, none⟩).1 = STATUS_OKAY ∧
    tblAllTrue 0 ≠ LOGIC_DONT_CARE ∧ 0 < 2 ^ 32 ∧
    EvaluateSumOfProducts 32
        (ReduceLogicC 32 (some tblAllTrue) ⟨32, 0, none, none⟩).2 0 ≠ tblAllTrue 0 := by
  refine ⟨by decide, by decide, by decide, by decide, by decide⟩

/-- C1 (amended): soundness of the reduction for `1 ≤ numVars < W`.  The
call succeeds, and for every minterm whose truth-table value is not
`LOGIC_DONT_CARE`, evaluating the resulting term set at that minterm
returns exactly the table value (True minterms are covered by some term,
False minterms by none). -/
theorem claim1_soundness (W : Nat) (table : Nat → triLogic) (sop : SumOfProducts)
    (h1 : 1 ≤ sop.numVars) (h2 : sop.numVars < W) :
    (ReduceLogicC W (some table) sop).1 = STATUS_OKAY ∧
    ∀ m, m < 2 ^ sop.numVars → table m ≠ LOGIC_DONT_CARE →
      EvaluateSumOfProducts W (ReduceLogicC W (some table) sop).2 m = table m := by
  have hn1 : ¬ (sop.numVars < 1) := by omega
  have hn2 : ¬ (sop.numVars > W) := by omega
  have hOK : ReduceLogicC W (some table) sop =
      (STATUS_OKAY, ⟨sop.numVars, (ReduceLogic W table sop.numVars).length,
        some ((ReduceLogic W table sop.numVars).map Prod.fst),
        some ((ReduceLogic W table sop.numVars).map Prod.snd)⟩) := by
    simp only [ReduceLogicC, if_neg hn1, if_neg hn2]
  obtain ⟨hWF, hNF, hCov, _⟩ := ReduceLogic_inv W table h2
  refine ⟨by rw [hOK], ?_⟩
  intro m hm hdc
  rw [hOK]
  show EvaluateSumOfProducts W
      ⟨sop.numVars, (ReduceLogic W table sop.numVars).length,
        some ((ReduceLogic W table sop.numVars).map Prod.fst),
        some ((ReduceLogic W table sop.numVars).map Prod.snd)⟩ m = table m
  rw [EvaluateSumOfProducts_spec h2 (ReduceLogic W table sop.numVars) m hm]
  cases htm : table m with
  | LOGIC_FALSE =>
    rw [if_neg]
    rintro ⟨td, htd, hcov⟩
    exact hNF td htd m hcov htm
  | LOGIC_TRUE =>
    rw [if_pos (hCov m hm htm)]
  | LOGIC_DONT_CARE =>
    exact absurd htm hdc

/-- C1 witness: the amended soundness theorem applied to Scenario A
(numVars = 3, W = 32). -/
theorem claim1_witness :
    (1 ≤ (⟨3, 0, none, none⟩ : SumOfProducts).numVars ∧
      (⟨3, 0, none, none⟩ : SumOfProducts).numVars < 32) ∧
    ((ReduceLogicC 32 (some tblScenarioA) ⟨3, 0, none, none⟩).1 = STATUS_OKAY ∧
      ∀ m, m < 2 ^ (⟨3, 0, none, none⟩ : SumOfProducts).numVars →
        tblScenarioA m ≠ LOGIC_DONT_CARE →
        EvaluateSumOfProducts 32
          (ReduceLogicC 32 (some tblScenarioA) ⟨3, 0, none, none⟩).2 m = tblScenarioA m) :=
  ⟨⟨by decide, by decide⟩,
    claim1_soundness 32 tblScenarioA ⟨3, 0, none, none⟩ (by decide) (by decide)⟩

/-- C2: primality of the filtered result.  Whenever `ReduceLogic`
succeeds, the returned struct embeds the term list of the core, and every
term of that list covers at least one minterm that no other term of the
list covers. -/
theorem claim2_primality (W : Nat) (table : Nat → triLogic) (sop : SumOfProducts)
    (hOK : (ReduceLogicC W (some table) sop).1 = STATUS_OKAY) :
    (ReduceLogicC W (some table) sop).2.terms =
      some ((ReduceLogic W table sop.numVars).map Prod.fst) ∧
    (ReduceLogicC W (some table) sop).2.dontCares =
      some ((ReduceLogic W table sop.numVars).map Prod.snd) ∧
    ∀ i, (hi : i < (ReduceLogic W table sop.numVars).length) → ∃ m, m < 2 ^ sop.numVars ∧
      covers (ReduceLogic W table sop.numVars)[i].1
        (ReduceLogic W table sop.numVars)[i].2 m ∧
      ∀ j, (hj : j < (ReduceLogic W table sop.numVars).length) → j ≠ i →
        ¬ covers (ReduceLogic W table sop.numVars)[j].1
          (ReduceLogic W table sop.numVars)[j].2 m := by
  have hn1 : ¬ (sop.numVars < 1) := by
    intro h
    rw [ReduceLogicC_status, if_pos h] at hOK
    exact shrinquemStatus.noConfusion hOK
  have hn2 : ¬ (sop.numVars > W) := by
    intro h
    rw [ReduceLogicC_status, if_neg hn1, if_pos h] at hOK
    exact shrinquemStatus.noConfusion hOK
  have hfields : (ReduceLogicC W (some table) sop).2.terms =
        some ((ReduceLogic W table sop.numVars).map Prod.fst) ∧
      (ReduceLogicC W (some table) sop).2.dontCares =
        some ((ReduceLogic W table sop.numVars).map Prod.snd) := by
    simp [ReduceLogicC, hn1, hn2]
  refine ⟨hfields.1, hfields.2, ?_⟩
  by_cases hW : sop.numVars < W
  · obtain ⟨_, _, _, hprime⟩ := ReduceLogic_inv W table hW
    exact hprime
  · have hnW : sop.numVars = W := by omega
    have hempty : ReduceLogic W table sop.numVars = [] := by
      rw [hnW, ReduceLogic, Nat.mod_self, List.range_zero]
      rfl
    intro i hi
    rw [hempty] at hi
    exact absurd hi (by simp)

/-- C2 witness: primality of the Scenario A result. -/
theorem claim2_witness :
    (ReduceLogicC 32 (some tblScenarioA) ⟨3, 0, none, none⟩).1 = STATUS_OKAY ∧
    ((ReduceLogicC 32 (some tblScenarioA) ⟨3, 0, none, none⟩).2.terms =
      some ((ReduceLogic 32 tblScenarioA
        (⟨3, 0, none, none⟩ : SumOfProducts).numVars).map Prod.fst) ∧
    (ReduceLogicC 32 (some tblScenarioA) ⟨3, 0, none, none⟩).2.dontCares =
      some ((ReduceLogic 32 tblScenarioA
        (⟨3, 0, none, none⟩ : SumOfProducts).numVars).map Prod.snd) ∧
    ∀ i, (hi : i < (ReduceLogic 32 tblScenarioA
        (⟨3, 0, none, none⟩ : SumOfProducts).numVars).length) →
      ∃ m, m < 2 ^ (⟨3, 0, none, none⟩ : SumOfProducts).numVars ∧
      covers (ReduceLogic 32 tblScenarioA
          (⟨3, 0, none, none⟩ : SumOfProducts).numVars)[i].1
        (ReduceLogic 32 tblScenarioA
          (⟨3, 0, none, none⟩ : SumOfProducts).numVars)[i].2 m ∧
      ∀ j, (hj : j < (ReduceLogic 32 tblScenarioA
          (⟨3, 0, none, none⟩ : SumOfProducts).numVars).length) → j ≠ i →
        ¬ covers (ReduceLogic 32 tblScenarioA
            (⟨3, 0, none, none⟩ : SumOfProducts).numVars)[j].1
          (ReduceLogic 32 tblScenarioA
            (⟨3, 0, none, none⟩ : SumOfProducts).numVars)[j].2 m) :=
  ⟨by decide, claim2_primality 32 tblScenarioA ⟨3, 0, none, none⟩ (by decide)⟩

/-- C3 (amended): for accepted inputs with numVars < W, every minterm
whose truth-table value is True is covered by at least one term of the
returned set (possibly by more than one, as the counterexample shows). -/
theorem claim3_cover (W : Nat) (table : Nat → triLogic) (sop : SumOfProducts)
    (h1 : 1 ≤ sop.numVars) (h2 : sop.numVars < W) :
    (ReduceLogicC W (some table) sop).1 = STATUS_OKAY ∧
    ∀ m, m < 2 ^ sop.numVars → table m = LOGIC_TRUE →
      ∃ td ∈ ReduceLogic W table sop.numVars, covers td.1 td.2 m := by
  have hn1 : ¬ (sop.numVars < 1) := by omega
  have hn2 : ¬ (sop.numVars > W) := by omega
  obtain ⟨_, _, hCov, _⟩ := ReduceLogic_inv W table h2
  refine ⟨?_, hCov⟩
  rw [ReduceLogicC_status, if_neg hn1, if_neg hn2]

/-- C3 witness: the amended cover theorem on the `[F,T,T,T]` table. -/
theorem claim3_witness :
    (1 ≤ (⟨2, 0, none, none⟩ : SumOfProducts).numVars ∧
      (⟨2, 0, none, none⟩ : SumOfProducts).numVars < 32) ∧
    ((ReduceLogicC 32 (some tblC3) ⟨2, 0, none, none⟩).1 = STATUS_OKAY ∧
      ∀ m, m < 2 ^ (⟨2, 0, none, none⟩ : SumOfProducts).numVars →
        tblC3 m = LOGIC_TRUE →
        ∃ td ∈ ReduceLogic 32 tblC3 (⟨2, 0, none, none⟩ : SumOfProducts).numVars,
          covers td.1 td.2 m) :=
  ⟨⟨by decide, by decide⟩, claim3_cover 32 tblC3 ⟨2, 0, none, none⟩ (by decide) (by decide)⟩

/-- C5 witness: the enumerator contract at numVars = 3, freeMask = 5
(bits 0 and 2 free), fixedBits = 2; the trace is `[2, 3, 6, 7]`. -/
theorem claim5_witness :
    (5 < 2 ^ 3) ∧
    ((dcEnum 5 3 (clearBits 2 5) (2 ^ 3)).length =
        2 ^ ((List.range 3).countP (fun i => (5 : Nat).testBit i)) ∧
    (dcEnum 5 3 (clearBits 2 5) (2 ^ 3)).Nodup ∧
    (∀ m, m ∈ dcEnum 5 3 (clearBits 2 5) (2 ^ 3) ↔ covers 2 5 m) ∧
    (∀ j, j < (dcEnum 5 3 (clearBits 2 5) (2 ^ 3)).length →
      (dcEnum 5 3 (clearBits 2 5) (2 ^ 3)).getD j 0 =
        clearBits 2 5 ||| deposit (dcPos 5 3) j) ∧
    dcNext 5 3 ((dcEnum 5 3 (clearBits 2 5) (2 ^ 3)).getD
        ((dcEnum 5 3 (clearBits 2 5) (2 ^ 3)).length - 1) 0) =
      (clearBits 2 5, 3)) :=
  ⟨by decide, claim5_enumerator 3 5 2 (by decide)⟩

/-- Two booleans are equal when their truth conditions agree. -/
theorem bool_eq_of_iff {a b : Bool} (h : a = true ↔ b = true) : a = b := by
  cases a <;> cases b <;> simp_all

/-- The W-bit computation of `inputMask = (1 << numVars) - 1` is exact
for `numVars < W`. -/
theorem inputMask_exact {W n : Nat} (hnW : n < W) :
    (2 ^ n % 2 ^ W + (2 ^ W - 1)) % 2 ^ W = 2 ^ n - 1 := by
  rw [sizeTruthtable_exact hnW]
  have h1 : (1 : Nat) ≤ 2 ^ n := Nat.pos_pow_of_pos n (by omega)
  have h2 : 2 ^ n < 2 ^ W := Nat.pow_lt_pow_right (by omega) hnW
  have h3 : 2 ^ n + (2 ^ W - 1) = 2 ^ W + (2 ^ n - 1) := by omega
  rw [h3, Nat.add_mod_left, Nat.mod_eq_of_lt (by omega)]

/-- Masking with `2 ^ n - 1` is reduction modulo `2 ^ n`. -/
theorem land_two_pow_sub_one (x n : Nat) : x &&& (2 ^ n - 1) = x % 2 ^ n := by
  refine Nat.eq_of_testBit_eq fun q => ?_
  rw [Nat.testBit_land, Nat.testBit_two_pow_sub_one, Nat.testBit_mod_two_pow]
  cases x.testBit q <;> cases decide (q < n) <;> rfl

/-- C10: evaluation ignores input bits at or above `numVars`.  For every
term set with `1 ≤ numVars < W` whose stored words are confined to the low
`numVars` bits (the data-model invariant), both evaluator variants return
the same result for `input` and for `input % 2 ^ numVars`, and the two
variants agree on every input. -/
theorem claim10_evaluate (W numVars numTerms : Nat) (terms dontCares : List Nat)
    (input : Nat) (h1 : 1 ≤ numVars) (h2 : numVars < W)
    (hconf : ∀ i, i < numTerms →
      terms.getD i 0 < 2 ^ numVars ∧ dontCares.getD i 0 < 2 ^ numVars) :
    EvaluateSumOfProducts W ⟨numVars, numTerms, some terms, some dontCares⟩ input =
      EvaluateSumOfProducts W ⟨numVars, numTerms, some terms, some dontCares⟩
        (input % 2 ^ numVars) ∧
    EvaluateSumOfProducts2 numVars numTerms terms dontCares input =
      EvaluateSumOfProducts2 numVars numTerms terms dontCares (input % 2 ^ numVars) ∧
    EvaluateSumOfProducts W ⟨numVars, numTerms, some terms, some dontCares⟩ input =
      EvaluateSumOfProducts2 numVars numTerms terms dontCares input := by
  have hstep : ∀ x : Nat,
      EvaluateSumOfProducts W ⟨numVars, numTerms, some terms, some dontCares⟩ x =
      (if (List.range numTerms).any (fun iTerm =>
          ((x &&& ((2 ^ numVars % 2 ^ W + (2 ^ W - 1)) % 2 ^ W)) ||| dontCares.getD iTerm 0) ==
            (terms.getD iTerm 0 ||| dontCares.getD iTerm 0))
       then LOGIC_TRUE else LOGIC_FALSE) := fun _ => rfl
  have hconstr : ∀ x : Nat, x &&& ((2 ^ numVars % 2 ^ W + (2 ^ W - 1)) % 2 ^ W) =
      x % 2 ^ numVars := by
    intro x
    rw [inputMask_exact h2, land_two_pow_sub_one]
  have hmodbit : ∀ (x i : Nat), i < numVars →
      (x % 2 ^ numVars).testBit i = x.testBit i := by
    intro x i hi
    rw [Nat.testBit_mod_two_pow]
    simp [hi]
  refine ⟨?_, ?_, ?_⟩
  · rw [hstep input, hstep (input % 2 ^ numVars), hconstr, hconstr,
      Nat.mod_mod_of_dvd input (dvd_refl _)]
  · rw [EvaluateSumOfProducts2, EvaluateSumOfProducts2]
    have hany : ((List.range numTerms).any (fun iTerm =>
        (List.range numVars).all (fun iVar =>
          (dontCares.getD iTerm 0).testBit iVar ||
            (input.testBit iVar == (terms.getD iTerm 0).testBit iVar)))) =
        ((List.range numTerms).any (fun iTerm =>
        (List.range numVars).all (fun iVar =>
          (dontCares.getD iTerm 0).testBit iVar ||
            ((input % 2 ^ numVars).testBit iVar ==
              (terms.getD iTerm 0).testBit iVar)))) := by
      refine bool_eq_of_iff ?_
      rw [List.any_eq_true, List.any_eq_true]
      refine exists_congr fun iTerm => and_congr_right fun _ => ?_
      rw [List.all_eq_true, List.all_eq_true]
      refine forall_congr' fun iVar => ?_
      refine imp_congr_right fun hiV => ?_
      rw [hmodbit input iVar (List.mem_range.mp hiV)]
    rw [hany]
  · rw [hstep input, EvaluateSumOfProducts2]
    have hany : ((List.range numTerms).any (fun iTerm =>
        ((input &&& ((2 ^ numVars % 2 ^ W + (2 ^ W - 1)) % 2 ^ W)) |||
            dontCares.getD iTerm 0) ==
          (terms.getD iTerm 0 ||| dontCares.getD iTerm 0))) =
        ((List.range numTerms).any (fun iTerm =>
        (List.range numVars).all (fun iVar =>
          (dontCares.getD iTerm 0).testBit iVar ||
            (input.testBit iVar == (terms.getD iTerm 0).testBit iVar)))) := by
      refine bool_eq_of_iff ?_
      rw [List.any_eq_true, List.any_eq_true]
      refine exists_congr fun iTerm => and_congr_right fun hiT => ?_
      have hiT2 : iTerm < numTerms := List.mem_range.mp hiT
      obtain ⟨hct, hcd⟩ := hconf iTerm hiT2
      rw [hconstr input]
      constructor
      · intro hbeq
        have heq := beq_iff_eq.mp hbeq
        rw [List.all_eq_true]
        intro iVar hiV
        have hiV2 : iVar < numVars := List.mem_range.mp hiV
        by_cases hdc : (dontCares.getD iTerm 0).testBit iVar
        · rw [hdc, Bool.true_or]
        · have hq := congrArg (fun y => y.testBit iVar) heq
          simp only [Nat.testBit_lor] at hq
          have hdc2 : (dontCares.getD iTerm 0).testBit iVar = false := by
            revert hdc; cases (dontCares.getD iTerm 0).testBit iVar <;> simp
          rw [hdc2, Bool.or_false, Bool.or_false, hmodbit input iVar hiV2] at hq
          rw [hdc2, Bool.false_or]
          exact beq_iff_eq.mpr hq
      · intro hall
        refine beq_iff_eq.mpr (Nat.eq_of_testBit_eq fun q => ?_)
        simp only [Nat.testBit_lor]
        by_cases hq : q < numVars
        · have hx := List.all_eq_true.mp hall q (List.mem_range.mpr hq)
          by_cases hdc : (dontCares.getD iTerm 0).testBit q
          · rw [hdc, Bool.or_true, Bool.or_true]
          · have hdc2 : (dontCares.getD iTerm 0).testBit q = false := by
              revert hdc; cases (dontCares.getD iTerm 0).testBit q <;> simp
            rw [hdc2, Bool.or_false, Bool.or_false, hmodbit input q hq]
            rw [hdc2, Bool.false_or] at hx
            exact beq_iff_eq.mp hx
        · have hhi : 2 ^ numVars ≤ 2 ^ q := Nat.pow_le_pow_right (by omega) (by omega)
          have ht0 : (terms.getD iTerm 0).testBit q = false :=
            Nat.testBit_lt_two_pow (lt_of_lt_of_le hct hhi)
          have hd0 : (dontCares.getD iTerm 0).testBit q = false :=
            Nat.testBit_lt_two_pow (lt_of_lt_of_le hcd hhi)
          have hm0 : (input % 2 ^ numVars).testBit q = false := by
            rw [Nat.testBit_mod_two_pow]
            simp [hq]
          rw [ht0, hd0, hm0]
    rw [hany]

/-- C10 witness: both evaluators on the term set `(terms [1], dontCares
[2])` over two variables, at the out-of-range input 7. -/
theorem claim10_witness :
    (1 ≤ 2 ∧ 2 < 32 ∧ (∀ i, i < 1 →
      ([1] : List Nat).getD i 0 < 2 ^ 2 ∧ ([2] : List Nat).getD i 0 < 2 ^ 2)) ∧
    (EvaluateSumOfProducts 32 ⟨2, 1, some [1], some [2]⟩ 7 =
      EvaluateSumOfProducts 32 ⟨2, 1, some [1], some [2]⟩ (7 % 2 ^ 2) ∧
    EvaluateSumOfProducts2 2 1 [1] [2] 7 =
      EvaluateSumOfProducts2 2 1 [1] [2] (7 % 2 ^ 2) ∧
    EvaluateSumOfProducts 32 ⟨2, 1, some [1], some [2]⟩ 7 =
      EvaluateSumOfProducts2 2 1 [1] [2] 7) :=
  ⟨⟨by decide, by decide, by decide⟩,
    claim10_evaluate 32 2 1 [1] [2] 7 (by decide) (by decide) (by decide)⟩

theorem ldiff_zero (x : Nat) : x.ldiff 0 = x := by
  refine Nat.eq_of_testBit_eq fun q => ?_
  rw [Nat.testBit_ldiff, Nat.zero_testBit]
  cases x.testBit q <;> rfl

theorem ldiff_all {x n : Nat} (h : x < 2 ^ n) : x.ldiff (2 ^ n - 1) = 0 := by
  refine Nat.eq_of_testBit_eq fun q => ?_
  rw [Nat.testBit_ldiff, Nat.testBit_two_pow_sub_one, Nat.zero_testBit]
  by_cases hq : q < n
  · simp [hq]
  · have : x.testBit q = false :=
      Nat.testBit_lt_two_pow (lt_of_lt_of_le h (Nat.pow_le_pow_right (by omega) (by omega)))
    simp [hq, this]

theorem lor_all {x n : Nat} (h : x < 2 ^ n) : x ||| (2 ^ n - 1) = 2 ^ n - 1 := by
  refine Nat.eq_of_testBit_eq fun q => ?_
  rw [Nat.testBit_lor, Nat.testBit_two_pow_sub_one]
  by_cases hq : q < n
  · simp [hq]
  · have : x.testBit q = false :=
      Nat.testBit_lt_two_pow (lt_of_lt_of_le h (Nat.pow_le_pow_right (by omega) (by omega)))
    simp [hq, this]

/-- A term whose don't-care mask covers all `n` variables covers every
minterm below `2 ^ n`. -/
theorem covers_full {t n m : Nat} (ht : t < 2 ^ n) (hm : m < 2 ^ n) :
    covers t (2 ^ n - 1) m := by
  show m ||| (2 ^ n - 1) = t ||| (2 ^ n - 1)
  rw [lor_all hm, lor_all ht]

/-- When the truth table has no `LOGIC_FALSE` entry below `2 ^ n`, every
tested bit is accepted as a don't-care: the final mask is the old mask
joined with all positions `b ≤ q < b + len`. -/
theorem expandBitsAux_all {table : Nat → triLogic} {n : Nat}
    (htab : ∀ m, m < 2 ^ n → table m ≠ LOGIC_FALSE) :
    ∀ (len b t d : Nat), b + len = n → d < 2 ^ b → t < 2 ^ n →
      (expandBitsAux table (List.range' b len) t d).2 =
        d ||| ((2 ^ n - 1).ldiff (2 ^ b - 1)) := by
  intro len
  induction len with
  | zero =>
    intro b t d hbn hd ht
    have hb : b = n := by omega
    subst hb
    have hzero : (2 ^ b - 1).ldiff (2 ^ b - 1) = 0 := ldiff_all (by omega)
    rw [List.range'_zero, expandBitsAux, hzero, Nat.or_zero]
  | succ len ih =>
    intro b t d hbn hd ht
    rw [List.range'_succ]
    have hbln : b < n := by omega
    have hy : t ^^^ 2 ^ b < 2 ^ n := xor_two_pow_lt ht hbln
    have hstep : expandBitsAux table (b :: List.range' (b + 1) len) t d =
        (if (expandLoop table (2 ^ b) d b ((t ^^^ 2 ^ b).ldiff d) (2 ^ b)).2 then
           expandBitsAux table (List.range' (b + 1) len)
             (expandLoop table (2 ^ b) d b ((t ^^^ 2 ^ b).ldiff d) (2 ^ b)).1 (d ||| 2 ^ b)
         else expandBitsAux table (List.range' (b + 1) len)
             (expandLoop table (2 ^ b) d b ((t ^^^ 2 ^ b).ldiff d) (2 ^ b)).1 d) := by
      simp only [expandBitsAux, clearBits_eq_ldiff]
    have hall : ∀ m, covers (t ^^^ 2 ^ b) d m → table m ≠ LOGIC_FALSE := by
      intro m hm
      exact htab m (covers_lt hy
        (lt_of_lt_of_le hd (Nat.pow_le_pow_right (by omega) (by omega))) hm)
    have hrun := (expandLoop_run table (2 ^ b) hd (t ^^^ 2 ^ b)).1 hall
    rw [hstep, hrun]
    simp only [if_pos]
    have ht1 : ((t ^^^ 2 ^ b).ldiff d) < 2 ^ n := ldiff_lt d hy
    rw [ih (b + 1) ((t ^^^ 2 ^ b).ldiff d) (d ||| 2 ^ b) (by omega) (lor_two_pow_lt hd) ht1]
    refine Nat.eq_of_testBit_eq fun q => ?_
    simp only [Nat.testBit_lor, Nat.testBit_ldiff, Nat.testBit_two_pow_sub_one]
    by_cases hqb : q = b
    · subst hqb
      have h1 : ¬ (q < q) := by omega
      simp [Nat.testBit_two_pow_self, hbln, h1]
    · rw [Nat.testBit_two_pow_of_ne (fun h => hqb h.symm)]
      by_cases hq1 : q < b
      · have hq2 : q < b + 1 := by omega
        simp [hq1, hq2]
      · have hq2 : ¬ (q < b + 1) := by omega
        simp [hq1, hq2]

/-- With no `LOGIC_FALSE` entry, the expansion of any seed accepts every
variable: the resulting don't-care mask covers all `n` bits. -/
theorem expandTerm_all {table : Nat → triLogic} {n seed : Nat}
    (htab : ∀ m, m < 2 ^ n → table m ≠ LOGIC_FALSE) (hseed : seed < 2 ^ n) :
    (expandTerm table n seed).2 = 2 ^ n - 1 := by
  rw [expandTerm, List.range_eq_range',
    expandBitsAux_all htab n 0 seed 0 (by omega) (by simp) hseed]
  have h0 : (2 : Nat) ^ 0 - 1 = 0 := by decide
  rw [h0, ldiff_zero, Nat.zero_or]

/-- The scan loop leaves the accumulator unchanged when no remaining index
seeds a new term. -/
theorem reduceLoop_skip {table : Nat → triLogic} {n : Nat} :
    ∀ (idxs : List Nat) (L : List (Nat × Nat)) (res : Nat → Bool),
      (∀ i ∈ idxs, ¬ (table i = LOGIC_TRUE ∧ res i = false)) →
      reduceLoop table n idxs L res = L := by
  intro idxs
  induction idxs with
  | nil => intro L res _; rfl
  | cons i rest ih =>
    intro L res h
    have hstep : reduceLoop table n (i :: rest) L res = reduceLoop table n rest L res := by
      simp only [reduceLoop, if_neg (h i (List.mem_cons_self i rest))]
    rw [hstep]
    exact ih L res fun j hj => h j (List.mem_cons_of_mem i hj)

/-- On a truth table with no `LOGIC_FALSE` entry and at least one
`LOGIC_TRUE` entry among the scanned indices, the scan loop starting from
an all-false resolved array appends exactly one term: the all-don't-care
term `(0, 2 ^ n - 1)`. -/
theorem reduceLoop_allTrue {table : Nat → triLogic} {n : Nat}
    (htab : ∀ m, m < 2 ^ n → table m ≠ LOGIC_FALSE) :
    ∀ (idxs : List Nat) (L : List (Nat × Nat)),
      (∀ i ∈ idxs, i < 2 ^ n) →
      (∃ i ∈ idxs, table i = LOGIC_TRUE) →
      reduceLoop table n idxs L (fun _ => false) = L ++ [(0, 2 ^ n - 1)] := by
  intro idxs
  induction idxs with
  | nil =>
    intro L _ hex
    obtain ⟨i, hi, _⟩ := hex
    cases hi
  | cons i rest ih =>
    intro L hb hex
    have hi : i < 2 ^ n := hb i (List.mem_cons_self i rest)
    by_cases hT : table i = LOGIC_TRUE
    · have hcond : table i = LOGIC_TRUE ∧ (fun _ : Nat => false) i = false := ⟨hT, rfl⟩
      have hstep : reduceLoop table n (i :: rest) L (fun _ => false) =
          reduceLoop table n rest
            (L ++ [((resolveLoop (expandTerm table n i).2 n
                ((expandTerm table n i).1.ldiff (expandTerm table n i).2)
                (fun _ => false) (2 ^ n)).2,
              (expandTerm table n i).2)])
            (resolveLoop (expandTerm table n i).2 n
              ((expandTerm table n i).1.ldiff (expandTerm table n i).2)
              (fun _ => false) (2 ^ n)).1 := by
        simp only [reduceLoop, clearBits_eq_ldiff, and_true]
        rw [if_pos hT]
      have hd : (expandTerm table n i).2 = 2 ^ n - 1 := expandTerm_all htab hi
      obtain ⟨hE1, _, _, _⟩ := expandTerm_inv hi hT
      have hdlt : (expandTerm table n i).2 < 2 ^ n := by
        rw [hd]
        have : (1 : Nat) ≤ 2 ^ n := Nat.pos_pow_of_pos n (by omega)
        omega
      obtain ⟨hR1, hR2⟩ := resolveLoop_run hdlt (expandTerm table n i).1 (fun _ => false)
      have hbase : (expandTerm table n i).1.ldiff (expandTerm table n i).2 = 0 := by
        rw [hd]
        exact ldiff_all hE1
      rw [hstep]
      have hresall : ∀ j ∈ rest, ¬ (table j = LOGIC_TRUE ∧
          (resolveLoop (expandTerm table n i).2 n
            ((expandTerm table n i).1.ldiff (expandTerm table n i).2)
            (fun _ => false) (2 ^ n)).1 j = false) := by
        intro j hj ⟨_, hfalse⟩
        have hjlt : j < 2 ^ n := hb j (List.mem_cons_of_mem i hj)
        have hcov : covers (expandTerm table n i).1 (expandTerm table n i).2 j := by
          rw [hd]
          exact covers_full hE1 hjlt
        have := (hR2 j).mpr (Or.inr hcov)
        rw [this] at hfalse
        exact Bool.noConfusion hfalse
      rw [reduceLoop_skip rest _ _ hresall, hR1, hbase, hd]
    · have hcond : ¬ (table i = LOGIC_TRUE ∧ (fun _ : Nat => false) i = false) :=
        fun h => hT h.1
      have hstep : reduceLoop table n (i :: rest) L (fun _ => false) =
          reduceLoop table n rest L (fun _ => false) := by
        simp only [reduceLoop, and_true]
        rw [if_neg hT]
      rw [hstep]
      refine ih L (fun j hj => hb j (List.mem_cons_of_mem i hj)) ?_
      obtain ⟨j, hj, hjT⟩ := hex
      rcases List.mem_cons.mp hj with h | h
      · exact absurd (h ▸ hjT) hT
      · exact ⟨j, h, hjT⟩

/-- A term whose first examined minterm is uniquely referenced is declared
prime immediately. -/
theorem primeTestLoop_hit {c : Nat → Nat} {d n t fuel : Nat}
    (h : c t = 1) (hf : 1 ≤ fuel) : primeTestLoop c d n t fuel = (t, true) := by
  cases fuel with
  | zero => omega
  | succ fuel => rw [primeTestLoop, if_pos h]

/-- The prime-implicant filter keeps the single all-don't-care term. -/
theorem RNP_single {n : Nat} :
    RemoveNonprimeImplicants n [(0, 2 ^ n - 1)] = [(0, 2 ^ n - 1)] := by
  have hd : (2 ^ n - 1 : Nat) < 2 ^ n := by
    have : (1 : Nat) ≤ 2 ^ n := Nat.pos_pow_of_pos n (by omega)
    omega
  have hc : ∀ m, buildRefCounts n [(0, 2 ^ n - 1)] (fun _ => 0) m =
      countCov [(0, 2 ^ n - 1)] m := by
    intro m
    rw [buildRefCounts_spec [(0, 2 ^ n - 1)] (fun _ => 0)
      (fun td htd => by rw [List.mem_singleton.mp htd]; exact hd) m]
    omega
  have hc0 : buildRefCounts n [(0, 2 ^ n - 1)] (fun _ => 0) (clearBits 0 (2 ^ n - 1)) = 1 := by
    have hcb : clearBits 0 (2 ^ n - 1) = 0 := by
      rw [clearBits_eq_ldiff]
      exact ldiff_all (Nat.pos_pow_of_pos n (by omega))
    rw [hcb, hc 0, countCov_cons, countCov_nil]
    rw [if_pos]
    show (0 : Nat) ||| (2 ^ n - 1) = 0 ||| (2 ^ n - 1)
    rfl
  have hfuel : (1 : Nat) ≤ 2 ^ n := Nat.pos_pow_of_pos n (by omega)
  have hstep : RemoveNonprimeImplicants n [(0, 2 ^ n - 1)] =
      (if (primeTestLoop (buildRefCounts n [(0, 2 ^ n - 1)] (fun _ => 0))
          (2 ^ n - 1) n (clearBits 0 (2 ^ n - 1)) (2 ^ n)).2 then
        filterLoop n [] (buildRefCounts n [(0, 2 ^ n - 1)] (fun _ => 0))
          ([] ++ [((primeTestLoop (buildRefCounts n [(0, 2 ^ n - 1)] (fun _ => 0))
            (2 ^ n - 1) n (clearBits 0 (2 ^ n - 1)) (2 ^ n)).1, 2 ^ n - 1)])
       else filterLoop n []
          (decRefLoop (2 ^ n - 1) n (clearBits 0 (2 ^ n - 1))
            (buildRefCounts n [(0, 2 ^ n - 1)] (fun _ => 0)) (2 ^ n)).1 []) := rfl
  rw [hstep, primeTestLoop_hit hc0 hfuel]
  have hcb : clearBits 0 (2 ^ n - 1) = 0 := by
    rw [clearBits_eq_ldiff]
    exact ldiff_all (Nat.pos_pow_of_pos n (by omega))
  simp only [if_pos, hcb]
  rfl

/-- The renderer produces `"1"` for a single term whose don't-care mask
has all `n` low bits set. -/
theorem genEq_one {n : Nat} (ts : List Nat) :
    GenerateEquationString ⟨n, 1, some ts, some [2 ^ n - 1]⟩ none = (STATUS_OKAY, "1") := by
  have hall : ((List.range n).all
      (fun iVar => (([2 ^ n - 1] : List Nat).getD 0 0 &&& 2 ^ iVar) != 0)) = true := by
    rw [List.all_eq_true]
    intro iVar hiv
    have hivn : iVar < n := List.mem_range.mp hiv
    have hne : (2 ^ n - 1) &&& 2 ^ iVar ≠ 0 := by
      intro h0
      have := congrArg (fun x => x.testBit iVar) h0
      simp only [Nat.testBit_land, Nat.testBit_two_pow_sub_one, Nat.zero_testBit,
        Nat.testBit_two_pow_self, hivn] at this
      simp [hivn] at this
    simpa using hne
  have h1 : ¬ (1 = 0) := by omega
  have hstep : GenerateEquationString ⟨n, 1, some ts, some [2 ^ n - 1]⟩ none =
      (if (1 : Nat) = 0 then (STATUS_OKAY, "0")
       else if (1 : Nat) = 1 ∧ ((List.range n).all
          (fun iVar => (([2 ^ n - 1] : List Nat).getD 0 0 &&& 2 ^ iVar) != 0)) then
         (STATUS_OKAY, "1")
       else (STATUS_OKAY,
        String.intercalate " + " ((List.range 1).map (fun iTerm =>
          termString n (autoVarNames n) (ts.getD iTerm 0)
            (([2 ^ n - 1] : List Nat).getD iTerm 0))))) := rfl
  rw [hstep, if_neg h1, if_pos ⟨rfl, hall⟩]

/-- C8 counterexample: the boundary claim fails at numVars = W.  At
W = 32 with the all-true table of length `2 ^ 32` (every entry True, so
every entry is True or DontCare and at least one is True), the accepted
call returns zero terms instead of one, and the rendering is `"0"`, not
`"1"`. -/
theorem claim8_counterexample :
    (∀ m, m < 2 ^ 32 → tblAllTrue m = LOGIC_TRUE ∨ tblAllTrue m = LOGIC_DONT_CARE) ∧
    tblAllTrue 0 = LOGIC_TRUE ∧ 0 < 2 ^ 32 ∧
    (ReduceLogicC 32 (some tblAllTrue) ⟨32, 0, none, none⟩).1 = STATUS_OKAY ∧
    (ReduceLogicC 32 (some tblAllTrue) ⟨32, 0, none, none⟩).2.numTerms = 0 ∧
    (GenerateEquationString (ReduceLogicC 32 (some tblAllTrue) ⟨32, 0, none, none⟩).2
      none).2 = "0" := by
  exact ⟨fun m _ => Or.inl rfl, rfl, by decide, by decide, by decide, by decide⟩

/-- C8 (amended): constant-true boundary for `1 ≤ numVars < W`.  If every
truth-table entry is True or DontCare and at least one is True, the call
succeeds with exactly one term — the all-don't-care term `(0, 2^numVars -
1)`, whose mask covers every variable — and the renderer produces `"1"`. -/
theorem claim8_constant_true (W : Nat) (table : Nat → triLogic) (sop : SumOfProducts)
    (h1 : 1 ≤ sop.numVars) (h2 : sop.numVars < W)
    (htab : ∀ m, m < 2 ^ sop.numVars →
      table m = LOGIC_TRUE ∨ table m = LOGIC_DONT_CARE)
    (hex : ∃ m0, m0 < 2 ^ sop.numVars ∧ table m0 = LOGIC_TRUE) :
    (ReduceLogicC W (some table) sop).1 = STATUS_OKAY ∧
    ReduceLogic W table sop.numVars = [(0, 2 ^ sop.numVars - 1)] ∧
    (ReduceLogicC W (some table) sop).2.numTerms = 1 ∧
    (∀ i, i < sop.numVars → (2 ^ sop.numVars - 1).testBit i = true) ∧
    GenerateEquationString (ReduceLogicC W (some table) sop).2 none =
      (STATUS_OKAY, "1") := by
  have hnf : ∀ m, m < 2 ^ sop.numVars → table m ≠ LOGIC_FALSE := by
    intro m hm hF
    rcases htab m hm with h | h <;> rw [hF] at h <;> exact triLogic.noConfusion h
  have hL : ReduceLogic W table sop.numVars = [(0, 2 ^ sop.numVars - 1)] := by
    rw [ReduceLogic, sizeTruthtable_exact h2]
    have hscan : reduceLoop table sop.numVars (List.range (2 ^ sop.numVars)) []
        (fun _ => false) = [] ++ [(0, 2 ^ sop.numVars - 1)] := by
      refine reduceLoop_allTrue hnf (List.range (2 ^ sop.numVars)) []
        (fun i hi => List.mem_range.mp hi) ?_
      obtain ⟨m0, hm0, hm0T⟩ := hex
      exact ⟨m0, List.mem_range.mpr hm0, hm0T⟩
    rw [hscan, List.nil_append, RNP_single]
  have hn1 : ¬ (sop.numVars < 1) := by omega
  have hn2 : ¬ (sop.numVars > W) := by omega
  have hOK : ReduceLogicC W (some table) sop =
      (STATUS_OKAY, ⟨sop.numVars, (ReduceLogic W table sop.numVars).length,
        some ((ReduceLogic W table sop.numVars).map Prod.fst),
        some ((ReduceLogic W table sop.numVars).map Prod.snd)⟩) := by
    simp only [ReduceLogicC, if_neg hn1, if_neg hn2]
  rw [hOK, hL]
  refine ⟨rfl, rfl, rfl, ?_, ?_⟩
  · intro i hi
    rw [Nat.testBit_two_pow_sub_one]
    simp [hi]
  · exact genEq_one [0]

/-- C8 witness: the amended theorem on the 2-variable table
`[T, DC, T, T]`. -/
theorem claim8_witness :
    (1 ≤ (⟨2, 0, none, none⟩ : SumOfProducts).numVars ∧
      (⟨2, 0, none, none⟩ : SumOfProducts).numVars < 32 ∧
      (∀ m, m < 2 ^ (⟨2, 0, none, none⟩ : SumOfProducts).numVars →
        (fun m => if m = 1 then LOGIC_DONT_CARE else LOGIC_TRUE) m = LOGIC_TRUE ∨
        (fun m => if m = 1 then LOGIC_DONT_CARE else LOGIC_TRUE) m = LOGIC_DONT_CARE) ∧
      (∃ m0, m0 < 2 ^ (⟨2, 0, none, none⟩ : SumOfProducts).numVars ∧
        (fun m => if m = 1 then LOGIC_DONT_CARE else LOGIC_TRUE) m0 = LOGIC_TRUE)) ∧
    ((ReduceLogicC 32 (some (fun m => if m = 1 then LOGIC_DONT_CARE else LOGIC_TRUE))
        ⟨2, 0, none, none⟩).1 = STATUS_OKAY ∧
      ReduceLogic 32 (fun m => if m = 1 then LOGIC_DONT_CARE else LOGIC_TRUE)
        (⟨2, 0, none, none⟩ : SumOfProducts).numVars =
        [(0, 2 ^ (⟨2, 0, none, none⟩ : SumOfProducts).numVars - 1)] ∧
      (ReduceLogicC 32 (some (fun m => if m = 1 then LOGIC_DONT_CARE else LOGIC_TRUE))
        ⟨2, 0, none, none⟩).2.numTerms = 1 ∧
      (∀ i, i < (⟨2, 0, none, none⟩ : SumOfProducts).numVars →
        (2 ^ (⟨2, 0, none, none⟩ : SumOfProducts).numVars - 1).testBit i = true) ∧
      GenerateEquationString
        (ReduceLogicC 32 (some (fun m => if m = 1 then LOGIC_DONT_CARE else LOGIC_TRUE))
          ⟨2, 0, none, none⟩).2 none = (STATUS_OKAY, "1")) :=
  ⟨⟨by decide, by decide, by decide, by decide⟩,
    claim8_constant_true 32 (fun m => if m = 1 then LOGIC_DONT_CARE else LOGIC_TRUE)
      ⟨2, 0, none, none⟩ (by decide) (by decide) (by decide) (by decide)⟩

end Shrinquem
